import Mathlib

/-!
# A verification development for the pears BitTorrent client

This file gives a shallow embedding, in Lean 4, of the core of the
pears BitTorrent client (files client.py, torrent.py, tracker.py), and
proves properties of that embedding.

Modelling conventions, used throughout:

* Python byte strings are `List Nat` (one entry per byte); Python ints
  are `Nat`/`Int`; Python lists are Lean lists.
* Python dictionaries are insertion-ordered association lists, exactly
  as CPython dicts behave (assignment to an existing key keeps its
  position, assignment to a new key appends).
* Mutation is modelled by explicit state passing.  Python object
  aliasing (the same `Block`/`Piece` object reachable both from a piece
  list and from a returned reference) is modelled by identifying blocks
  by their position inside their piece and pieces by their position
  inside the three piece lists; a method that mutates an aliased object
  becomes a functional update of the element at that position.
* `time.time()` samples are passed in as an explicit `now` argument
  (milliseconds, as in the source's `int(round(time.time() * 1000))`).
* `hashlib.sha1` is an external collaborator; functions that hash take
  an abstract `hashFn : List Nat → List Nat` argument.
* Peer ids (Python strings) are represented by `Nat` keys; nothing in
  the code inspects their contents.
-/

namespace Pears

/-- protocol.REQUEST_SIZE: the size of a standard block request. -/
def REQUEST_SIZE : Nat := 16384

/-- Block status constants from class Block (Missing = 0, Pending = 1,
Retrieved = 2). -/
inductive BlockStatus where
  | Missing
  | Pending
  | Retrieved
deriving DecidableEq, Repr

/-- class Block: the smallest transfer unit.  `piece` is the owning
piece index, `offset` the byte offset inside the piece, `length` the
block length; `status` starts Missing and `data` starts absent. -/
structure Block where
  piece : Nat
  offset : Nat
  length : Nat
  status : BlockStatus := BlockStatus.Missing
  data : Option (List Nat) := none
deriving DecidableEq, Repr

/-- class Piece: an index, an ordered block list and the expected
20-byte SHA-1 digest from the metainfo. -/
structure Piece where
  index : Nat
  blocks : List Block
  hash_value : List Nat
deriving DecidableEq, Repr

/-- Piece.reset: set the status of every block back to Missing. -/
def Piece.reset (p : Piece) : Piece :=
  { p with blocks := p.blocks.map (fun b => { b with status := BlockStatus.Missing }) }

/-- Piece.is_complete: true when no block has status other than
Retrieved. -/
def Piece.is_complete (p : Piece) : Bool :=
  (p.blocks.filter (fun b => b.status != BlockStatus.Retrieved)).length == 0

/-- The identity of a block handed back by an operation: the fields of
the Python `Block` object that are fixed after construction.  The
mutable `status`/`data` fields live in the piece lists of the state. -/
structure BlockId where
  piece : Nat
  offset : Nat
  length : Nat
deriving DecidableEq, Repr

/-- Helper for Piece.next_request: find the first block with status
Missing, set it to Pending, and return its identity together with the
updated block list.  This is `[b for b in blocks if b.status == Missing][0]`
followed by the in-place status assignment. -/
def setFirstMissingPending : List Block → Option BlockId × List Block
  | [] => (none, [])
  | b :: bs =>
    if b.status = BlockStatus.Missing then
      (some ⟨b.piece, b.offset, b.length⟩, { b with status := BlockStatus.Pending } :: bs)
    else
      let r := setFirstMissingPending bs
      (r.1, b :: r.2)

/-- Piece.next_request: hand out the piece's first Missing block after
marking it Pending; None when every block is already Pending or
Retrieved. -/
def Piece.next_request (p : Piece) : Option BlockId × Piece :=
  let r := setFirstMissingPending p.blocks
  (r.1, { p with blocks := r.2 })

/-- Helper for Piece.block_received: the first block whose offset
matches gets status Retrieved and the data attached; when no offset
matches the call only logs a warning. -/
def setBlockRetrieved (off : Nat) (data : List Nat) : List Block → List Block
  | [] => []
  | b :: bs =>
    if b.offset = off then
      { b with status := BlockStatus.Retrieved, data := some data } :: bs
    else
      b :: setBlockRetrieved off data bs

/-- Piece.block_received: record a delivered block. -/
def Piece.block_received (p : Piece) (off : Nat) (data : List Nat) : Piece :=
  { p with blocks := setBlockRetrieved off data p.blocks }

/-- Stable insertion by offset, used to model `sorted(self.blocks,
key=lambda b: b.offset)` (Python's sort is stable; insertion after
equal keys preserves the original relative order). -/
def insertByOffset (b : Block) : List Block → List Block
  | [] => [b]
  | a :: as => if b.offset < a.offset then b :: a :: as else a :: insertByOffset b as

def sortByOffset : List Block → List Block
  | [] => []
  | b :: bs => insertByOffset b (sortByOffset bs)

/-- Piece.data: concatenation of the block data in offset order
(a block that never received data contributes nothing, mirroring that
the property is only read on complete pieces). -/
def Piece.piece_data (p : Piece) : List Nat :=
  ((sortByOffset p.blocks).map (fun b => b.data.getD [])).flatten

/-- Piece.is_hash_matching with an explicit SHA-1 stand-in. -/
def Piece.is_hash_matching (hashFn : List Nat → List Nat) (p : Piece) : Bool :=
  p.hash_value == hashFn p.piece_data

/-- dataclass PendingRequest: the block reference is represented by the
block's immutable identity fields; `added` is the issue timestamp in
milliseconds. -/
structure PendingRequest where
  blockPiece : Nat
  blockOffset : Nat
  blockLength : Nat
  added : Nat
deriving DecidableEq, Repr

/-- PieceManager.max_pending_time = 300 * 1000 (five minutes in
milliseconds); an instance constant in the source. -/
def max_pending_time : Nat := 300 * 1000

/-- The mutable state of class PieceManager.  `piece_length` is the
torrent's piece length (used by _write for the file offset); `writes`
is the log of (file offset, bytes) pairs handed to os.write, modelling
the output file descriptor. -/
structure PMState where
  peers : List (Nat × List Bool)
  pending_blocks : List PendingRequest
  have_pieces : List Piece
  ongoing_pieces : List Piece
  missing_pieces : List Piece
  piece_length : Nat
  writes : List (Nat × List Nat)
deriving Repr

/-- Reading one bit of a peer bitfield: `bitfield[i]`.  Out-of-range
reads answer false where CPython would raise IndexError; every state
reachable with well-formed (full-length) bitfields never goes out of
range, and the raising runs mutate no state before the raise. -/
def bitAt (bf : List Bool) (i : Nat) : Bool := bf.getD i false

/-- Dictionary lookup `self.peers[peer_id]` / membership test. -/
def lookupPeer : List (Nat × List Bool) → Nat → Option (List Bool)
  | [], _ => none
  | kv :: rest, pid => if kv.1 = pid then some kv.2 else lookupPeer rest pid

/-- Dictionary assignment `self.peers[peer_id] = bitfield`: replace in
place when the key exists, append otherwise (CPython dict order). -/
def dictSet : List (Nat × List Bool) → Nat → List Bool → List (Nat × List Bool)
  | [], pid, bf => [(pid, bf)]
  | kv :: rest, pid, bf =>
    if kv.1 = pid then (pid, bf) :: rest else kv :: dictSet rest pid bf

/-- Dictionary deletion `del self.peers[peer_id]`. -/
def dictDel : List (Nat × List Bool) → Nat → List (Nat × List Bool)
  | [], _ => []
  | kv :: rest, pid => if kv.1 = pid then rest else kv :: dictDel rest pid

/-- PieceManager.add_peer: installs the availability map with no
validation of the bitfield's length. -/
def add_peer (pid : Nat) (bf : List Bool) (s : PMState) : PMState :=
  { s with peers := dictSet s.peers pid bf }

/-- PieceManager.update_peer: set one bit when the peer is known
(out-of-range index is a no-op here; CPython raises IndexError after
mutating nothing). -/
def update_peer (pid : Nat) (idx : Nat) (s : PMState) : PMState :=
  match lookupPeer s.peers pid with
  | none => s
  | some bf => { s with peers := dictSet s.peers pid (bf.set idx true) }

/-- PieceManager.remove_peer. -/
def remove_peer (pid : Nat) (s : PMState) : PMState :=
  match lookupPeer s.peers pid with
  | none => s
  | some _ => { s with peers := dictDel s.peers pid }

/-- The expiry test of PieceManager._expired_requests for one pending
record: the peer owns the block's piece and the request is older than
max_pending_time. -/
def expiredQual (now : Nat) (bf : List Bool) (r : PendingRequest) : Bool :=
  bitAt bf r.blockPiece && decide (r.added + max_pending_time < now)

/-- PieceManager._expired_requests, on the pending list: find the first
record whose piece the peer owns and whose age exceeds
max_pending_time, stamp `added := now` in place, and return its block
together with the updated list. -/
def expiredGo (now : Nat) (bf : List Bool) :
    List PendingRequest → Option (BlockId × List PendingRequest)
  | [] => none
  | r :: rs =>
    if expiredQual now bf r then
      some (⟨r.blockPiece, r.blockOffset, r.blockLength⟩, { r with added := now } :: rs)
    else
      match expiredGo now bf rs with
      | some (b, rs2) => some (b, r :: rs2)
      | none => none

/-- PieceManager._next_ongoing, on the ongoing list: the source returns
on the FIRST ongoing piece the peer owns, whether or not that piece
still has a Missing block.  Result: none when the peer owns no ongoing
piece, otherwise the block option from Piece.next_request on the first
owned piece plus the updated list. -/
def nextOngoingGo (bf : List Bool) : List Piece → Option (Option BlockId × List Piece)
  | [] => none
  | p :: ps =>
    if bitAt bf p.index then
      let r := p.next_request
      some (r.1, r.2 :: ps)
    else
      match nextOngoingGo bf ps with
      | some (r, ps2) => some (r, p :: ps2)
      | none => none

/-- PieceManager._next_ongoing: when a block is handed out a
PendingRequest stamped `now` is appended. -/
def next_ongoing (now : Nat) (bf : List Bool) (s : PMState) : Option BlockId × PMState :=
  match nextOngoingGo bf s.ongoing_pieces with
  | none => (none, s)
  | some (none, ps) => (none, { s with ongoing_pieces := ps })
  | some (some b, ps) =>
    (some b, { s with ongoing_pieces := ps,
                      pending_blocks := s.pending_blocks ++
                        [⟨b.piece, b.offset, b.length, now⟩] })

/-- Number of known peers whose bitfield reports piece `idx`: the inner
loop of PieceManager._get_rarest_piece. -/
def countOwners (peers : List (Nat × List Bool)) (idx : Nat) : Nat :=
  (peers.filter (fun kv => bitAt kv.2 idx)).length

/-- The `piece_count` defaultdict of _get_rarest_piece as an ordered
association list: keys appear in missing-list order, restricted to the
pieces the requesting peer owns, and a key is only ever inserted when
its count is incremented at least once (a candidate owned by no peer at
all gets no entry). -/
def pieceCount (bf : List Bool) (peers : List (Nat × List Bool))
    (missing : List Piece) : List (Piece × Nat) :=
  ((missing.filter (fun p => bitAt bf p.index)).map
    (fun p => (p, countOwners peers p.index))).filter (fun pc => pc.2 != 0)

/-- CPython's `min(iterable, key=f)` returns the FIRST element
attaining the minimal key (ties keep the earliest; `min` only replaces
its best on a strict improvement). -/
def pyMinBy (f : α → Nat) : List α → Option α
  | [] => none
  | a :: as =>
    match pyMinBy f as with
    | none => some a
    | some m => some (if f m < f a then m else a)

/-- The selection step of PieceManager._get_rarest_piece: None when
`piece_count` is empty, otherwise the first piece of minimal count. -/
def getRarestSelect (bf : List Bool) (peers : List (Nat × List Bool))
    (missing : List Piece) : Option Piece :=
  pyMinBy (fun p => countOwners peers p.index) ((pieceCount bf peers missing).map (fun pc => pc.1))

/-- PieceManager._next_missing, search part: pop the first missing
piece the peer owns. -/
def nextMissingGo (bf : List Bool) : List Piece → Option (Piece × List Piece)
  | [] => none
  | p :: ps =>
    if bitAt bf p.index then some (p, ps)
    else
      match nextMissingGo bf ps with
      | some (c, ps2) => some (c, p :: ps2)
      | none => none

/-- PieceManager._next_missing: move the popped piece to the end of
ongoing and return `piece.next_request()` on it (the append happens
before the mutation, so the mutated piece is what ongoing ends with). -/
def next_missing (bf : List Bool) (s : PMState) : Option BlockId × PMState :=
  match nextMissingGo bf s.missing_pieces with
  | none => (none, s)
  | some (c, ms) =>
    let r := c.next_request
    (r.1, { s with missing_pieces := ms, ongoing_pieces := s.ongoing_pieces ++ [r.2] })

/-- Rules 3 and 4 of PieceManager.next_request: when the rarest
selection finds a piece, _get_rarest_piece removes it from missing
(list.remove: first occurrence) and appends it to ongoing, and
`piece.next_request()` is returned directly — marking the first Missing
block Pending on the object now sitting at the end of ongoing, with NO
PendingRequest registered; otherwise fall through to _next_missing. -/
def rarest_or_missing (bf : List Bool) (s : PMState) : Option BlockId × PMState :=
  match getRarestSelect bf s.peers s.missing_pieces with
  | some c =>
    let r := c.next_request
    (r.1, { s with missing_pieces := s.missing_pieces.erase c,
                   ongoing_pieces := s.ongoing_pieces ++ [r.2] })
  | none => next_missing bf s

/-- PieceManager.next_request.  Strategy in source order: unknown peer
returns None; else expired re-request, then continue-ongoing, then
rarest-first (whose block is returned directly, with no
PendingRequest), then next-missing.  The source samples the clock
separately inside rules 1 and 2; both samples are the `now` argument
here. -/
def next_request (now : Nat) (pid : Nat) (s : PMState) : Option BlockId × PMState :=
  match lookupPeer s.peers pid with
  | none => (none, s)
  | some bf =>
    match expiredGo now bf s.pending_blocks with
    | some (b, pbs) => (some b, { s with pending_blocks := pbs })
    | none =>
      match next_ongoing now bf s with
      | (some b, s2) => (some b, s2)
      | (none, s2) => rarest_or_missing bf s2

/-- The pending-removal loop of PieceManager.block_received: delete the
first record matching (piece_index, block_offset). -/
def removeFirstPending (pieceIndex blockOffset : Nat) :
    List PendingRequest → List PendingRequest
  | [] => []
  | r :: rs =>
    if r.blockPiece = pieceIndex ∧ r.blockOffset = blockOffset then rs
    else r :: removeFirstPending pieceIndex blockOffset rs

/-- First element satisfying the predicate, with its position:
`[x for x in l if f x][0]` plus the position needed to model in-place
mutation of that element. -/
def findFirstWithIdx (f : α → Bool) : List α → Option (Nat × α)
  | [] => none
  | a :: as =>
    if f a then some (0, a)
    else (findFirstWithIdx f as).map (fun ib => (ib.1 + 1, ib.2))

/-- PieceManager.block_received.  The pending record is removed first;
then the piece is located in ongoing; the block is marked Retrieved; if
the piece became complete its hash is checked: on a match the piece is
written (`writes` gets the (piece_length * index, data) record) and
moved from ongoing to have, on a mismatch the piece is reset in place
and stays in ongoing.  An index with no ongoing piece only logs.  The
peer_id argument of the source is only logged and is omitted. -/
def block_received (hashFn : List Nat → List Nat)
    (pieceIndex blockOffset : Nat) (data : List Nat) (s : PMState) : PMState :=
  let s1 := { s with pending_blocks := removeFirstPending pieceIndex blockOffset s.pending_blocks }
  match findFirstWithIdx (fun p => p.index == pieceIndex) s1.ongoing_pieces with
  | none => s1
  | some (i, p) =>
    let p1 := p.block_received blockOffset data
    if p1.is_complete then
      if p1.is_hash_matching hashFn then
        { s1 with ongoing_pieces := (s1.ongoing_pieces.set i p1).erase p1,
                  have_pieces := s1.have_pieces ++ [p1],
                  writes := s1.writes ++ [(s1.piece_length * p1.index, p1.piece_data)] }
      else
        { s1 with ongoing_pieces := s1.ongoing_pieces.set i p1.reset }
    else
      { s1 with ongoing_pieces := s1.ongoing_pieces.set i p1 }

/-- Ceiling division, standing in for `math.ceil(a / b)` on the exact
rational (the source goes through a float; realistic torrent sizes are
far below the range where the float rounds wrongly). -/
def ceilDiv (a b : Nat) : Nat := (a + b - 1) / b

/-- Replace the length of the last block of a list:
`blocks[-1].length = last_block_length`. -/
def setLastLength (len : Nat) : List Block → List Block
  | [] => []
  | [b] => [{ b with length := len }]
  | b :: bs => b :: setLastLength len bs

/-- PieceManager._init_pieces: every piece except the last gets
`ceil(piece_length / REQUEST_SIZE)` blocks of REQUEST_SIZE; the last
piece's length is computed as `total_length % piece_length`, tiled in
REQUEST_SIZE blocks with the final block shortened to
`last_piece_length % REQUEST_SIZE` when that is non-zero. -/
def init_pieces (pieceLength totalLength : Nat) (hashes : List (List Nat)) : List Piece :=
  let totalPieces := hashes.length
  let numStdBlocks := ceilDiv pieceLength REQUEST_SIZE
  hashes.enum.map (fun ih =>
    if ih.1 < totalPieces - 1 then
      ⟨ih.1, (List.range numStdBlocks).map
        (fun o => { piece := ih.1, offset := o * REQUEST_SIZE, length := REQUEST_SIZE }), ih.2⟩
    else
      let lastPieceLength := totalLength % pieceLength
      let numLastBlocks := ceilDiv lastPieceLength REQUEST_SIZE
      let blocks := (List.range numLastBlocks).map
        (fun o => ({ piece := ih.1, offset := o * REQUEST_SIZE, length := REQUEST_SIZE } : Block))
      let lastBlockLength := lastPieceLength % REQUEST_SIZE
      ⟨ih.1, if 0 < lastBlockLength then setLastLength lastBlockLength blocks else blocks, ih.2⟩)

/-- PieceManager.__init__: empty peer map, no pending requests, no have
or ongoing pieces, missing = the initialized piece list. -/
def initPM (pieceLength totalLength : Nat) (hashes : List (List Nat)) : PMState :=
  { peers := [], pending_blocks := [], have_pieces := [], ongoing_pieces := [],
    missing_pieces := init_pieces pieceLength totalLength hashes,
    piece_length := pieceLength, writes := [] }

/-- The PieceManager operations reachable from the outside, for
stating properties of arbitrary operation sequences. -/
inductive PMOp where
  | addPeer (pid : Nat) (bf : List Bool)
  | updatePeer (pid idx : Nat)
  | removePeer (pid : Nat)
  | nextReq (now pid : Nat)
  | blockRecv (pieceIndex blockOffset : Nat) (data : List Nat)

def applyOp (hashFn : List Nat → List Nat) : PMOp → PMState → PMState
  | PMOp.addPeer pid bf, s => add_peer pid bf s
  | PMOp.updatePeer pid idx, s => update_peer pid idx s
  | PMOp.removePeer pid, s => remove_peer pid s
  | PMOp.nextReq now pid, s => (next_request now pid s).2
  | PMOp.blockRecv pi off d, s => block_received hashFn pi off d s

def applyOps (hashFn : List Nat → List Nat) (ops : List PMOp) (s : PMState) : PMState :=
  ops.foldl (fun st op => applyOp hashFn op st) s

/-! ## Tracker request parameters (tracker.py / client.py) -/
/-- The query parameter record built by Tracker._get_request_params.
`left` is `total_length - downloaded` computed over the integers, as in
the source. -/
structure AnnounceParams where
  info_hash : List Nat
  peer_id : List Nat
  uploaded : Nat
  downloaded : Nat
  port : Nat
  left : Int
  compact : Nat
  event : Option String
deriving DecidableEq, Repr

/-- Tracker._get_request_params: the fixed parameter set, with
`event = 'started'` added exactly when the `first` argument is truthy. -/
def get_request_params (infoHash peerId : List Nat) (totalLength : Nat)
    (first : Bool) (uploaded downloaded : Nat) : AnnounceParams :=
  { info_hash := infoHash, peer_id := peerId, uploaded := uploaded,
    downloaded := downloaded, port := 6889,
    left := (totalLength : Int) - (downloaded : Int), compact := 1,
    event := if first then some "started" else none }

/-- client.TorrentClient.start line 103: the value passed as `first` to
Tracker.connect is `previous_request if previous_request else False`,
that is, the TIMESTAMP of the previous successful announce when one
exists (truthy for any non-zero time) and False on the very first
announce.  `previous_request` is modelled as an optional timestamp. -/
def clientFirstArg : Option Nat → Bool
  | none => false
  | some t => t != 0

/-! ## Concrete fixtures for scenario statements and witnesses -/
/-- A one-block piece with index `i`, used by concrete scenarios. -/
def exPiece (i : Nat) : Piece :=
  ⟨i, [{ piece := i, offset := 0, length := REQUEST_SIZE }], [i]⟩

/-- The state of spec scenario S2: three missing one-block pieces
0, 1, 2; peer 1 (A) has pieces 0 and 1, peer 2 (B) has 1 and 2, peer 3
(C) has only piece 1. -/
def s2State : PMState :=
  { peers := [(1, [true, true, false]), (2, [false, true, true]), (3, [false, true, false])],
    pending_blocks := [], have_pieces := [], ongoing_pieces := [],
    missing_pieces := [exPiece 0, exPiece 1, exPiece 2],
    piece_length := REQUEST_SIZE, writes := [] }

/-- The S3-style pending fixture: the S2 state plus one pending request
for piece 0's block issued at time 0 by some peer. -/
def c2State : PMState :=
  { s2State with pending_blocks := [⟨0, 0, REQUEST_SIZE, 0⟩] }

/-- Piece 0 as it stands right after its single block was handed out:
the block is Pending. -/
def s3Piece : Piece :=
  ⟨0, [⟨0, 0, REQUEST_SIZE, BlockStatus.Pending, none⟩], [0]⟩

/-- The state of spec scenario S3: piece 0's single block was handed
out at t = 0 — it is Pending inside ongoing and a pending record
stamped 0 exists — while pieces 1 and 2 are still missing.  Peers as
in S2. -/
def s3State : PMState :=
  { peers := [(1, [true, true, false]), (2, [false, true, true]),
              (3, [false, true, false])],
    pending_blocks := [⟨0, 0, REQUEST_SIZE, 0⟩],
    have_pieces := [],
    ongoing_pieces := [s3Piece],
    missing_pieces := [exPiece 1, exPiece 2],
    piece_length := REQUEST_SIZE, writes := [] }

/-- The concrete fixture for C3's witness: one ongoing one-block piece
whose declared digest [9] cannot match the stand-in hash (fun _ => [7]). -/
def c3Piece : Piece := ⟨0, [{ piece := 0, offset := 0, length := 1 }], [9]⟩

def c3State : PMState :=
  { peers := [(1, [true])], pending_blocks := [], have_pieces := [],
    ongoing_pieces := [c3Piece], missing_pieces := [],
    piece_length := 1, writes := [] }

/-! ## The partition invariant (C6) -/
/-- The indexes of all pieces held by the three piece lists, in order:
missing, then ongoing, then have.  The identity of a piece across its
mutations is its index. -/
def pieceIdxs (s : PMState) : List Nat :=
  s.missing_pieces.map Piece.index ++ s.ongoing_pieces.map Piece.index ++
    s.have_pieces.map Piece.index

/-! ## Bencoded values (the bencodepy data model) and the metainfo
loader (torrent.py) -/
/-- A decoded bencoded value as produced by bencodepy: integers, byte
strings, lists, and insertion-ordered dictionaries with byte-string
keys. -/
inductive BVal where
  | int (i : Int)
  | bstr (s : List Nat)
  | blist (l : List BVal)
  | bdict (d : List (List Nat × BVal))

/-- The bytes of an ASCII string (for ASCII text this equals its UTF-8
encoding). -/
def asciiBytes (s : String) : List Nat := s.data.map (fun c => c.toNat)

/-- Python dictionary lookup on a decoded bencode dictionary. -/
def bdictGet : List (List Nat × BVal) → List Nat → Option BVal
  | [], _ => none
  | kv :: rest, k => if kv.1 = k then some kv.2 else bdictGet rest k

/-- The Python exceptions relevant to the modelled paths. -/
inductive PyErr where
  | keyError
  | typeError
  | runtimeError
  | unicodeDecodeError
deriving DecidableEq, Repr

/-- UTF-8 continuation byte (0x80–0xBF). -/
def isCont (b : Nat) : Bool := 128 ≤ b && b ≤ 191

/-- Strict UTF-8 validity of a byte sequence, exactly the condition
under which CPython's bytes.decode('utf-8') succeeds (surrogates and
over-long encodings rejected). -/
def utf8Valid : List Nat → Bool
  | [] => true
  | b :: rest =>
    if b ≤ 127 then utf8Valid rest
    else if 194 ≤ b && b ≤ 223 then
      match rest with
      | c1 :: r => isCont c1 && utf8Valid r
      | [] => false
    else if b = 224 then
      match rest with
      | c1 :: c2 :: r => (160 ≤ c1 && c1 ≤ 191) && isCont c2 && utf8Valid r
      | _ => false
    else if 225 ≤ b && b ≤ 236 then
      match rest with
      | c1 :: c2 :: r => isCont c1 && isCont c2 && utf8Valid r
      | _ => false
    else if b = 237 then
      match rest with
      | c1 :: c2 :: r => (128 ≤ c1 && c1 ≤ 159) && isCont c2 && utf8Valid r
      | _ => false
    else if 238 ≤ b && b ≤ 239 then
      match rest with
      | c1 :: c2 :: r => isCont c1 && isCont c2 && utf8Valid r
      | _ => false
    else if b = 240 then
      match rest with
      | c1 :: c2 :: c3 :: r =>
        (144 ≤ c1 && c1 ≤ 191) && isCont c2 && isCont c3 && utf8Valid r
      | _ => false
    else if 241 ≤ b && b ≤ 243 then
      match rest with
      | c1 :: c2 :: c3 :: r => isCont c1 && isCont c2 && isCont c3 && utf8Valid r
      | _ => false
    else if b = 244 then
      match rest with
      | c1 :: c2 :: c3 :: r =>
        (128 ≤ c1 && c1 ≤ 143) && isCont c2 && isCont c3 && utf8Valid r
      | _ => false
    else false

/-- The dictionary keys used by torrent.py and tracker.py. -/
def keyInfo : List Nat := asciiBytes "info"

def keyFiles : List Nat := asciiBytes "files"

def keyName : List Nat := asciiBytes "name"

def keyLength : List Nat := asciiBytes "length"

def keyPieceLength : List Nat := asciiBytes "piece length"

def keyPieces : List Nat := asciiBytes "pieces"

def keyAnnounce : List Nat := asciiBytes "announce"

def keyInterval : List Nat := asciiBytes "interval"

def keyPeers : List Nat := asciiBytes "peers"

def keyFailureReason : List Nat := asciiBytes "failure reason"

/-- The state a successfully constructed Torrent object carries:
the decoded meta_info dictionary, the info hash, and the files list
(one (name, length) entry for a single-file torrent; `length` is
stored raw, as the source performs no type check on it). -/
structure TorrentState where
  meta_info : List (List Nat × BVal)
  info_hash : List Nat
  files : List (List Nat × BVal)

/-- Torrent.__init__ from the decoded metainfo value onward (the
path/extension validation and bencodepy.bread are file I/O, outside the
embedding).  `infoDigest` stands for sha1(bencodepy.encode(info)), the
composition of two external collaborators.  Faithful to the source's
exceptional behaviour: meta_info[b'info'] raises KeyError/TypeError,
_get_torrent_files raises RuntimeError on a multi-file torrent and
KeyError on a missing name or length; name.decode('utf-8') raises
UnicodeDecodeError on invalid bytes and AttributeError (modelled
typeError) on a non-bytes name.  NOTE: neither `piece length` nor
`pieces` is read, let alone validated, during construction. -/
def torrent_init (infoDigest : BVal → List Nat) (meta : BVal) :
    Except PyErr TorrentState :=
  match meta with
  | BVal.bdict d =>
    match bdictGet d keyInfo with
    | none => Except.error PyErr.keyError
    | some info =>
      match info with
      | BVal.bdict di =>
        if (bdictGet di keyFiles).isSome then Except.error PyErr.runtimeError
        else
          match bdictGet di keyName with
          | none => Except.error PyErr.keyError
          | some (BVal.bstr nm) =>
            if utf8Valid nm then
              match bdictGet di keyLength with
              | none => Except.error PyErr.keyError
              | some lv => Except.ok ⟨d, infoDigest info, [(nm, lv)]⟩
            else Except.error PyErr.unicodeDecodeError
          | some _ => Except.error PyErr.typeError
      | _ => Except.error PyErr.typeError
  | _ => Except.error PyErr.typeError

/-- Torrent.piece_length: returns meta_info[b'info'][b'piece length']
raw — no check that the value is an integer. -/
def torrent_piece_length (t : TorrentState) : Except PyErr BVal :=
  match bdictGet t.meta_info keyInfo with
  | none => Except.error PyErr.keyError
  | some (BVal.bdict di) =>
    match bdictGet di keyPieceLength with
    | none => Except.error PyErr.keyError
    | some v => Except.ok v
  | some _ => Except.error PyErr.typeError

/-- Helper for chunksOf, structurally recursive on a fuel argument so
that it reduces inside the kernel; the fuel is the input length, which
always suffices since every step consumes at least one byte. -/
def chunksOfAux (n : Nat) : Nat → List Nat → List (List Nat)
  | _, [] => []
  | 0, _ :: _ => []
  | fuel + 1, a :: rest => ((a :: rest).take n) :: chunksOfAux n fuel (rest.drop (n - 1))

/-- Slicing a byte string into chunks of n bytes from the front, the
list comprehension `[data[off:off+n] for off in range(0, len(data), n)]`
(n ≥ 1; the last chunk may be shorter than n). -/
def chunksOf (n : Nat) (l : List Nat) : List (List Nat) := chunksOfAux n l.length l

/-- Torrent.pieces: chunk meta_info[b'info'][b'pieces'] into 20-byte
slices — the LAST slice is simply shorter when the length is not a
multiple of 20; nothing fails. -/
def torrent_pieces (t : TorrentState) : Except PyErr (List (List Nat)) :=
  match bdictGet t.meta_info keyInfo with
  | none => Except.error PyErr.keyError
  | some (BVal.bdict di) =>
    match bdictGet di keyPieces with
    | none => Except.error PyErr.keyError
    | some (BVal.bstr data) => Except.ok (chunksOf 20 data)
    | some _ => Except.error PyErr.typeError
  | some _ => Except.error PyErr.typeError

/-- Torrent.announce: meta_info[b'announce'].decode('utf-8') — only
read on access, never during construction. -/
def torrent_announce (t : TorrentState) : Except PyErr (List Nat) :=
  match bdictGet t.meta_info keyAnnounce with
  | none => Except.error PyErr.keyError
  | some (BVal.bstr a) =>
    if utf8Valid a then Except.ok a else Except.error PyErr.unicodeDecodeError
  | some _ => Except.error PyErr.typeError

/-! ## Claim C9: metainfo loading -/
/-- An info dictionary with a NON-INTEGER piece length (a byte string)
and a pieces byte string of length 30 (not a multiple of 20). -/
def c9Info : List (List Nat × BVal) :=
  [(keyName, BVal.bstr (asciiBytes "f")),
   (keyLength, BVal.int 10),
   (keyPieceLength, BVal.bstr (asciiBytes "x")),
   (keyPieces, BVal.bstr (List.replicate 30 0))]

def c9Meta : List (List Nat × BVal) :=
  [(keyAnnounce, BVal.bstr (asciiBytes "http://t")), (keyInfo, BVal.bdict c9Info)]

def c9Torrent : TorrentState :=
  ⟨c9Meta, [], [(asciiBytes "f", BVal.int 10)]⟩

/-! ## The tracker client (tracker.py): bencode decoding, the failure
check, and the compact peer list (C8) -/
def isDigit (b : Nat) : Bool := 48 ≤ b && b ≤ 57

/-- Split the longest leading run of ASCII digits off a byte list. -/
def takeDigits : List Nat → List Nat × List Nat
  | [] => ([], [])
  | b :: rest =>
    if isDigit b then
      let r := takeDigits rest
      (b :: r.1, r.2)
    else ([], b :: rest)

def digitsToNat (ds : List Nat) : Nat :=
  ds.foldl (fun acc d => acc * 10 + (d - 48)) 0

/-- Parse a bencoded byte string `<decimal length>:<bytes>` off the
front of the input; byte 58 is the colon. -/
def parseBStr (bs : List Nat) : Option (List Nat × List Nat) :=
  let td := takeDigits bs
  if td.1.isEmpty then none
  else
    match td.2 with
    | 58 :: rest =>
      let n := digitsToNat td.1
      if rest.length < n then none else some (rest.take n, rest.drop n)
    | _ => none

/- A fuel-indexed recursive-descent bencode decoder (the semantics of
bencodepy.decode): byte 105 is the letter i, 108 is l, 100 is d, 101 is
e, 45 is the minus sign.  Every recursive call spends one unit of fuel,
so 2·|input|+2 units always suffice. -/
mutual
def parseBVal : Nat → List Nat → Option (BVal × List Nat)
  | 0, _ => none
  | _ + 1, [] => none
  | fuel + 1, b :: rest =>
    if b = 105 then
      match rest with
      | 45 :: rest1 =>
        let td := takeDigits rest1
        if td.1.isEmpty then none
        else
          match td.2 with
          | 101 :: r2 => some (BVal.int (-(digitsToNat td.1 : Int)), r2)
          | _ => none
      | _ =>
        let td := takeDigits rest
        if td.1.isEmpty then none
        else
          match td.2 with
          | 101 :: r2 => some (BVal.int (digitsToNat td.1 : Int), r2)
          | _ => none
    else if b = 108 then
      match parseBItems fuel rest with
      | some (vs, r2) => some (BVal.blist vs, r2)
      | none => none
    else if b = 100 then
      match parseBPairs fuel rest with
      | some (ps, r2) => some (BVal.bdict ps, r2)
      | none => none
    else if isDigit b then
      match parseBStr (b :: rest) with
      | some (sv, r2) => some (BVal.bstr sv, r2)
      | none => none
    else none

def parseBItems : Nat → List Nat → Option (List BVal × List Nat)
  | 0, _ => none
  | _ + 1, [] => none
  | fuel + 1, b :: rest =>
    if b = 101 then some ([], rest)
    else
      match parseBVal fuel (b :: rest) with
      | some (v, r2) =>
        match parseBItems fuel r2 with
        | some (vs, r3) => some (v :: vs, r3)
        | none => none
      | none => none

def parseBPairs : Nat → List Nat → Option (List (List Nat × BVal) × List Nat)
  | 0, _ => none
  | _ + 1, [] => none
  | fuel + 1, b :: rest =>
    if b = 101 then some ([], rest)
    else
      match parseBStr (b :: rest) with
      | some (k, r2) =>
        match parseBVal fuel r2 with
        | some (v, r3) =>
          match parseBPairs fuel r3 with
          | some (ps, r4) => some ((k, v) :: ps, r4)
          | none => none
        | none => none
      | none => none
end

/-- bencodepy.decode: a decode succeeds only when the whole input is
consumed. -/
def bdecode (bs : List Nat) : Option BVal :=
  match parseBVal (2 * bs.length + 2) bs with
  | some (v, []) => some v
  | _ => none

def listStartsWith : List Nat → List Nat → Bool
  | [], _ => true
  | _ :: _, [] => false
  | p :: ps, b :: bs => p == b && listStartsWith ps bs

/-- Byte-level substring containment, the semantics of Python's
`pat in text` for an all-ASCII pattern inside a valid UTF-8 text
(ASCII bytes never occur inside a multi-byte UTF-8 sequence). -/
def containsSub (pat : List Nat) : List Nat → Bool
  | [] => listStartsWith pat []
  | b :: rest => listStartsWith pat (b :: rest) || containsSub pat rest

def failureWord : List Nat := asciiBytes "failure"

/-- tracker.Tracker.check_for_error: decode the WHOLE response as
UTF-8 and look for the substring 'failure' anywhere in it; a
UnicodeDecodeError is swallowed.  So it raises (returns true here)
exactly when the bytes are valid UTF-8 and contain the substring —
NOT when the bencoded dictionary has a `failure reason` key. -/
def check_for_error (bs : List Nat) : Bool :=
  utf8Valid bs && containsSub failureWord bs

inductive TrackerErr where
  | connectionError
  | bencodeError
deriving DecidableEq, Repr

structure TrackerResp where
  tracker_response : BVal

/-- Tracker.connect from the received 200-status response body onward
(the HTTP transport is an external collaborator): raise ConnectionError
when check_for_error fires, otherwise wrap the bencode-decoded value. -/
def tracker_connect (bs : List Nat) : Except TrackerErr TrackerResp :=
  if check_for_error bs then Except.error TrackerErr.connectionError
  else
    match bdecode bs with
    | none => Except.error TrackerErr.bencodeError
    | some v => Except.ok ⟨v⟩

/-- TrackerResponse.interval: `tracker_response.get(b'interval', 0)`;
reading the property of a non-dictionary response raises. -/
def TrackerResp.interval (r : TrackerResp) : Except PyErr BVal :=
  match r.tracker_response with
  | BVal.bdict d => Except.ok ((bdictGet d keyInterval).getD (BVal.int 0))
  | _ => Except.error PyErr.typeError

inductive PeersErr where
  | keyError
  | typeError
  | notImplementedError
  | structError
deriving DecidableEq, Repr

/-- One 6-byte compact record: socket.inet_ntoa(chunk[:4]) renders the
first four bytes (kept here as the raw 4-byte list rather than the
dotted-decimal text) and struct.unpack('>H', chunk[4:]) is the
big-endian 16-bit port; a chunk of any other length makes one of the
two library calls raise. -/
def decodeChunk6 : List Nat → Except PeersErr (List Nat × Nat)
  | [a, b, c, d, e, f] => Except.ok ([a, b, c, d], 256 * e + f)
  | _ => Except.error PeersErr.structError

/-- The sequential decode of the chunk list (the source's list
comprehension): the first bad chunk raises. -/
def decodePeerChunks : List (List Nat) → Except PeersErr (List (List Nat × Nat))
  | [] => Except.ok []
  | c :: cs =>
    match decodeChunk6 c with
    | Except.ok p =>
      match decodePeerChunks cs with
      | Except.ok ps => Except.ok (p :: ps)
      | Except.error e => Except.error e
    | Except.error e => Except.error e

/-- TrackerResponse.peers: the dictionary model (a bencoded list)
raises NotImplementedError; the binary model is split into 6-byte
slices, each decoded to (ipv4 bytes, port). -/
def TrackerResp.peers (r : TrackerResp) : Except PeersErr (List (List Nat × Nat)) :=
  match r.tracker_response with
  | BVal.bdict d =>
    match bdictGet d keyPeers with
    | none => Except.error PeersErr.keyError
    | some (BVal.blist _) => Except.error PeersErr.notImplementedError
    | some (BVal.bstr pb) => decodePeerChunks (chunksOf 6 pb)
    | some _ => Except.error PeersErr.typeError
  | _ => Except.error PeersErr.typeError

/-- Modelled from the spec's words (§4.B): the compact peer list is a
byte string whose length is a multiple of 6; record k consists of the 4
bytes of a big-endian IPv4 address followed by a 2-byte big-endian TCP
port. -/
def specCompactPeers (pb : List Nat) : List (List Nat × Nat) :=
  (List.range (pb.length / 6)).map (fun k =>
    ((pb.drop (6 * k)).take 4,
     256 * pb.getD (6 * k + 4) 0 + pb.getD (6 * k + 5) 0))

/-! ## Claim C8 -/
/-- A benign bencoded response: no `failure reason` key, but the text
contains the word 'failure' (here as the value of a `name` key). -/
def c8FailureBytes : List Nat := asciiBytes "d8:intervali900e4:name7:failure5:peers0:e"

def c8FailureDict : List (List Nat × BVal) :=
  [(keyInterval, BVal.int 900), (keyName, BVal.bstr failureWord),
   (keyPeers, BVal.bstr [])]

/-- A well-formed response with one compact peer record
1.2.3.4:80. -/
def c8GoodBytes : List Nat :=
  asciiBytes "d8:intervali900e5:peers6:" ++ [1, 2, 3, 4, 0, 80] ++ asciiBytes "e"

def c8GoodDict : List (List Nat × BVal) :=
  [(keyInterval, BVal.int 900), (keyPeers, BVal.bstr [1, 2, 3, 4, 0, 80])]

/-! ## Theorems -/

/-! ## Dictionary lemmas -/
theorem lookup_dictSet_self (l : List (Nat × List Bool)) (pid : Nat) (bf : List Bool) :
    lookupPeer (dictSet l pid bf) pid = some bf := by
  induction l with
  | nil => simp [dictSet, lookupPeer]
  | cons kv rest ih =>
    by_cases h : kv.1 = pid
    · simp [dictSet, lookupPeer, h]
    · simp [dictSet, lookupPeer, h, ih]

theorem lookup_dictSet_other (l : List (Nat × List Bool)) (pid q : Nat) (bf : List Bool)
    (h : q ≠ pid) : lookupPeer (dictSet l pid bf) q = lookupPeer l q := by
  induction l with
  | nil => simp [dictSet, lookupPeer, Ne.symm h]
  | cons kv rest ih =>
    by_cases hk : kv.1 = pid
    · simp [dictSet, lookupPeer, hk, Ne.symm h]
    · simp only [dictSet, if_neg hk, lookupPeer]
      by_cases hq : kv.1 = q
      · simp [hq]
      · simp [hq, ih]

theorem lookupPeer_mem (l : List (Nat × List Bool)) (pid : Nat) (bf : List Bool)
    (h : lookupPeer l pid = some bf) : (pid, bf) ∈ l := by
  induction l with
  | nil => simp [lookupPeer] at h
  | cons kv rest ih =>
    obtain ⟨k, v⟩ := kv
    by_cases hk : k = pid
    · subst hk
      simp [lookupPeer] at h
      subst h
      exact List.mem_cons_self _ _
    · simp [lookupPeer, hk] at h
      exact List.mem_cons_of_mem _ (ih h)

/-! ## Lemmas about the expiry scan (rule 1 of next_request) -/
/-- The code's expiry test, rephrased the way the claim states it:
the peer owns the piece and the age `now − issued_at` strictly exceeds
300,000 ms. -/
theorem expiredQual_iff (now : Nat) (bf : List Bool) (r : PendingRequest) :
    expiredQual now bf r = true ↔
      (bitAt bf r.blockPiece = true ∧ 300000 < now - r.added) := by
  simp only [expiredQual, max_pending_time, Bool.and_eq_true, decide_eq_true_eq]
  constructor
  · rintro ⟨h1, h2⟩
    exact ⟨h1, by omega⟩
  · rintro ⟨h1, h2⟩
    exact ⟨h1, by omega⟩

theorem expiredGo_none (now : Nat) (bf : List Bool) (l : List PendingRequest)
    (h : ∀ r ∈ l, expiredQual now bf r = false) :
    expiredGo now bf l = none := by
  induction l with
  | nil => rfl
  | cons r rs ih =>
    have h0 := h r (List.mem_cons_self _ _)
    have ih2 := ih (fun q hq => h q (List.mem_cons_of_mem _ hq))
    simp [expiredGo, h0, ih2]

/-- The expiry scan finds the first qualifying record, stamps exactly
that record with `now`, and returns its block identity. -/
theorem expiredGo_first (now : Nat) (bf : List Bool) (l : List PendingRequest)
    (i : Nat) (r : PendingRequest) (hi : l.get? i = some r)
    (hq : expiredQual now bf r = true)
    (hfirst : ∀ j q, j < i → l.get? j = some q → expiredQual now bf q = false) :
    expiredGo now bf l = some (⟨r.blockPiece, r.blockOffset, r.blockLength⟩,
      l.set i { r with added := now }) := by
  induction l generalizing i with
  | nil => simp at hi
  | cons a rs ih =>
    cases i with
    | zero =>
      have ha : a = r := by simpa using hi
      subst ha
      simp [expiredGo, hq]
    | succ j =>
      have ha : expiredQual now bf a = false := hfirst 0 a (Nat.succ_pos j) rfl
      have hi2 : rs.get? j = some r := by simpa using hi
      have ihr := ih j hi2
        (fun k q hk hkq => hfirst (k + 1) q (Nat.succ_lt_succ hk) (by simpa using hkq))
      simp [expiredGo, ha, ihr]

theorem nextOngoingGo_none (bf : List Bool) (l : List Piece)
    (h : ∀ p ∈ l, bitAt bf p.index = false) :
    nextOngoingGo bf l = none := by
  induction l with
  | nil => rfl
  | cons p ps ih =>
    have h0 := h p (List.mem_cons_self _ _)
    have ih2 := ih (fun q hq => h q (List.mem_cons_of_mem _ hq))
    simp [nextOngoingGo, h0, ih2]

/-! ## Lemmas about rarest-first selection (rule 3 of next_request) -/
theorem pyMinBy_cons (f : α → Nat) (a : α) (as : List α) :
    pyMinBy f (a :: as) =
      match pyMinBy f as with
      | none => some a
      | some m => some (if f m < f a then m else a) := rfl

/-- `pyMinBy f l` on a non-empty list returns the FIRST element
attaining the minimal key: it is in the list, its key is a lower bound,
and every strictly earlier element has a strictly larger key. -/
theorem pyMinBy_first_min (f : α → Nat) (l : List α) (hne : l ≠ []) :
    ∃ m i, pyMinBy f l = some m ∧ l.get? i = some m ∧
      (∀ x ∈ l, f m ≤ f x) ∧ (∀ j q, j < i → l.get? j = some q → f m < f q) := by
  induction l with
  | nil => exact absurd rfl hne
  | cons a as ih =>
    cases as with
    | nil =>
      refine ⟨a, 0, rfl, rfl, ?_, ?_⟩
      · intro x hx
        have : x = a := by simpa using hx
        subst this
        exact Nat.le_refl _
      · intro j q hj _
        exact absurd hj (Nat.not_lt_zero j)
    | cons b bs =>
      obtain ⟨m, i, hmin, hget, hle, hfirst⟩ := ih (by simp)
      by_cases hlt : f m < f a
      · refine ⟨m, i + 1, ?_, by simpa using hget, ?_, ?_⟩
        · rw [pyMinBy_cons, hmin]
          simp [hlt]
        · intro x hx
          rcases List.mem_cons.mp hx with rfl | hx2
          · exact Nat.le_of_lt hlt
          · exact hle x hx2
        · intro j q hj hjq
          cases j with
          | zero =>
            have : q = a := by simpa using hjq.symm
            subst this
            exact hlt
          | succ k =>
            exact hfirst k q (by omega) (by simpa using hjq)
      · have hla : f a ≤ f m := Nat.le_of_not_lt hlt
        refine ⟨a, 0, ?_, rfl, ?_, ?_⟩
        · rw [pyMinBy_cons, hmin]
          simp [hlt]
        · intro x hx
          rcases List.mem_cons.mp hx with rfl | hx2
          · exact Nat.le_refl _
          · exact Nat.le_trans hla (hle x hx2)
        · intro j q hj _
          exact absurd hj (Nat.not_lt_zero j)

/-- A candidate the requesting peer owns is reported by at least one
peer (the requester itself), so its count in `piece_count` is never
zero. -/
theorem countOwners_pos (peers : List (Nat × List Bool)) (pid : Nat) (bf : List Bool)
    (idx : Nat) (hmem : (pid, bf) ∈ peers) (hbit : bitAt bf idx = true) :
    countOwners peers idx ≠ 0 := by
  unfold countOwners
  have hm : (pid, bf) ∈ peers.filter (fun kv => bitAt kv.2 idx) :=
    List.mem_filter.mpr ⟨hmem, hbit⟩
  intro h0
  rw [List.length_eq_zero] at h0
  rw [h0] at hm
  exact absurd hm (List.not_mem_nil _)

/-- When the requesting peer's own bitfield is installed, the
`piece_count != 0` filter keeps every candidate, so the selection is
just the first-minimum over the candidates in missing order. -/
theorem getRarestSelect_eq (bf : List Bool) (peers : List (Nat × List Bool))
    (missing : List Piece) (pid : Nat) (hmem : (pid, bf) ∈ peers) :
    getRarestSelect bf peers missing =
      pyMinBy (fun p => countOwners peers p.index)
        (missing.filter (fun p => bitAt bf p.index)) := by
  unfold getRarestSelect pieceCount
  have hall : ∀ pc ∈ (missing.filter (fun p => bitAt bf p.index)).map
      (fun p => (p, countOwners peers p.index)), (pc.2 != 0) = true := by
    intro pc hpc
    obtain ⟨p, hp, rfl⟩ := List.mem_map.mp hpc
    have hbit : bitAt bf p.index = true := (List.mem_filter.mp hp).2
    simpa using countOwners_pos peers pid bf p.index hmem hbit
  rw [List.filter_eq_self.mpr hall, List.map_map]
  have hid : ((fun pc : Piece × Nat => pc.1) ∘
      fun p => (p, countOwners peers p.index)) = id := rfl
  rw [hid, List.map_id]

/-! ## Claim theorems: C10, C7, C4, C5 -/
/-- C10: for a peer id with no installed bitfield, next_request returns
None and leaves the whole PieceManager state (missing, ongoing, have,
pending_blocks, every block status, the write log) unchanged. -/
theorem C10_unknown_peer_noop (now pid : Nat) (s : PMState)
    (h : lookupPeer s.peers pid = none) :
    next_request now pid s = (none, s) := by
  unfold next_request
  rw [h]

theorem C10_witness : next_request 0 9 s2State = (none, s2State) :=
  C10_unknown_peer_noop 0 9 s2State rfl

/-- C7 counterexample: on a two-piece torrent, add_peer with a
length-one bitfield (1 ≠ 2 = number of pieces) INSTALLS the
availability map — the source performs no length validation and raises
nothing — contrary to the claim that the call fails with
ProtocolViolation instead of installing the map. -/
theorem C7_counterexample :
    (initPM 16384 32768 [[0], [1]]).missing_pieces.length = 2 ∧
    ([true] : List Bool).length ≠ 2 ∧
    (add_peer 7 [true] (initPM 16384 32768 [[0], [1]])).peers = [(7, [true])] := by
  refine ⟨by decide, by decide, rfl⟩

/-- C7 amended: add_peer installs the given bitfield unconditionally,
whatever its length: afterwards looking the peer up yields exactly that
bitfield, every other peer's entry is unchanged, and no piece or
pending state changes; no error of any kind is signalled. -/
theorem C7_amended_add_peer (pid : Nat) (bf : List Bool) (s : PMState) :
    lookupPeer (add_peer pid bf s).peers pid = some bf ∧
    (∀ q, q ≠ pid → lookupPeer (add_peer pid bf s).peers q = lookupPeer s.peers q) ∧
    (add_peer pid bf s).missing_pieces = s.missing_pieces ∧
    (add_peer pid bf s).ongoing_pieces = s.ongoing_pieces ∧
    (add_peer pid bf s).have_pieces = s.have_pieces ∧
    (add_peer pid bf s).pending_blocks = s.pending_blocks ∧
    (add_peer pid bf s).writes = s.writes := by
  refine ⟨lookup_dictSet_self _ _ _, ?_, rfl, rfl, rfl, rfl, rfl⟩
  intro q hq
  exact lookup_dictSet_other _ _ _ _ hq

theorem C7_amended_witness :
    lookupPeer (add_peer 7 [true] s2State).peers 7 = some [true] ∧
    lookupPeer (add_peer 7 [true] s2State).peers 1 = lookupPeer s2State.peers 1 :=
  ⟨(C7_amended_add_peer 7 [true] s2State).1,
   (C7_amended_add_peer 7 [true] s2State).2.1 1 (by decide)⟩

/-- C4: the code computes the last piece's length as
`total_length % piece_length`, which is 0 whenever the total is an
exact multiple of the piece length.  Failing input: piece_length =
16384, total_length = 32768, two pieces.  The claim (and the spec's own
invariant) demands a last piece of length 32768 − 16384·1 = 16384 > 0
tiled by one REQUEST_SIZE block; the code instead materializes an EMPTY
block list for the last piece (while the first piece is tiled
correctly). -/
theorem C4_code_bug :
    (init_pieces 16384 32768 [[0], [1]]).map
        (fun p => p.blocks.map (fun b => (b.offset, b.length))) = [[(0, 16384)], []] ∧
    32768 % 16384 = 0 ∧
    32768 - 16384 * (2 - 1) = 16384 := by
  refine ⟨by decide, by decide, by decide⟩

/-- C5: the client passes `previous_request` itself (the timestamp of
the last successful announce) as the `first` flag.  On the very first
announce `previous_request` is None, so `first` is False and the
`event` parameter is OMITTED; on every later announce the timestamp is
truthy, so `event = 'started'` IS sent — the exact opposite of the
claim.  The remaining parameters match the claim (port 6889,
compact 1, left = total_length − downloaded). -/
theorem C5_code_bug :
    (get_request_params [3] [4] 1000 (clientFirstArg none) 0 0).event = none ∧
    (get_request_params [3] [4] 1000 (clientFirstArg (some 1700000000000)) 0 0).event =
      some "started" ∧
    (get_request_params [3] [4] 1000 (clientFirstArg none) 0 0).port = 6889 ∧
    (get_request_params [3] [4] 1000 (clientFirstArg none) 0 0).compact = 1 ∧
    (get_request_params [3] [4] 1000 (clientFirstArg none) 5 3).left = 1000 - 3 ∧
    (get_request_params [3] [4] 1000 (clientFirstArg none) 5 3).uploaded = 5 ∧
    (get_request_params [3] [4] 1000 (clientFirstArg none) 5 3).downloaded = 3 ∧
    (get_request_params [3] [4] 1000 (clientFirstArg none) 0 0).info_hash = [3] ∧
    (get_request_params [3] [4] 1000 (clientFirstArg none) 0 0).peer_id = [4] :=
  ⟨rfl, rfl, rfl, rfl, rfl, rfl, rfl, rfl, rfl⟩

/-- The rule-3/4 tail never touches pending_blocks: neither
_get_rarest_piece nor _next_missing registers or re-stamps a
PendingRequest. -/
theorem rarest_or_missing_pending (bf : List Bool) (s : PMState) :
    (rarest_or_missing bf s).2.pending_blocks = s.pending_blocks := by
  cases hsel : getRarestSelect bf s.peers s.missing_pieces with
  | some c =>
    have h : rarest_or_missing bf s =
        ((c.next_request).1,
         { s with missing_pieces := s.missing_pieces.erase c,
                  ongoing_pieces := s.ongoing_pieces ++ [(c.next_request).2] }) := by
      unfold rarest_or_missing
      simp only [hsel]
    rw [h]
  | none =>
    have h : rarest_or_missing bf s = next_missing bf s := by
      unfold rarest_or_missing
      simp only [hsel]
    rw [h]
    cases hnm : nextMissingGo bf s.missing_pieces with
    | none =>
      have h2 : next_missing bf s = (none, s) := by
        unfold next_missing
        rw [hnm]
      rw [h2]
    | some pr =>
      obtain ⟨c, ms⟩ := pr
      have h2 : next_missing bf s =
          ((c.next_request).1,
           { s with missing_pieces := ms,
                    ongoing_pieces := s.ongoing_pieces ++ [(c.next_request).2] }) := by
        unfold next_missing
        rw [hnm]
      rw [h2]

/-- C2: for a peer with an installed bitfield, next_request first scans
pending_blocks in insertion order; for the FIRST record whose piece the
peer owns and whose age now − issued_at strictly exceeds
MAX_PENDING_MS = 300,000 ms, it re-stamps that record in place with now
and returns its block, changing nothing else (no new block is
started).  Conjunct 3: with no qualifying record the scan yields none;
conjunct 4: then next_request re-stamps nothing — the pending list can
only grow by an appended fresh request.  Conjunct 5 is the claim's
boundary scenario (spec S3): a block handed out at t = 0 is NOT
re-issued at t = 299,999 ms (a fresh block of another piece is served
and the stamp-0 record survives untouched), while at t = 300,001 ms it
MUST be re-issued with a fresh stamp before any new block is started
(the piece lists are unchanged). -/
theorem C2_expired_rerequest (now pid : Nat) (s : PMState) (bf : List Bool)
    (hbf : lookupPeer s.peers pid = some bf) :
    max_pending_time = 300000 ∧
    (∀ i r, s.pending_blocks.get? i = some r →
      bitAt bf r.blockPiece = true → 300000 < now - r.added →
      (∀ j q, j < i → s.pending_blocks.get? j = some q →
        ¬(bitAt bf q.blockPiece = true ∧ 300000 < now - q.added)) →
      next_request now pid s =
        (some ⟨r.blockPiece, r.blockOffset, r.blockLength⟩,
         { s with pending_blocks := s.pending_blocks.set i { r with added := now } })) ∧
    ((∀ r ∈ s.pending_blocks, ¬(bitAt bf r.blockPiece = true ∧ 300000 < now - r.added)) →
      expiredGo now bf s.pending_blocks = none) ∧
    ((∀ r ∈ s.pending_blocks, ¬(bitAt bf r.blockPiece = true ∧ 300000 < now - r.added)) →
      ∃ tl, (next_request now pid s).2.pending_blocks = s.pending_blocks ++ tl) ∧
    ((next_request 299999 1 s3State).1 = some ⟨1, 0, REQUEST_SIZE⟩ ∧
     (next_request 299999 1 s3State).2.pending_blocks = [⟨0, 0, REQUEST_SIZE, 0⟩] ∧
     (next_request 300001 1 s3State).1 = some ⟨0, 0, REQUEST_SIZE⟩ ∧
     (next_request 300001 1 s3State).2.pending_blocks =
       [⟨0, 0, REQUEST_SIZE, 300001⟩] ∧
     (next_request 300001 1 s3State).2.ongoing_pieces = s3State.ongoing_pieces ∧
     (next_request 300001 1 s3State).2.missing_pieces = s3State.missing_pieces) := by
  have hexpOf : (∀ r ∈ s.pending_blocks,
      ¬(bitAt bf r.blockPiece = true ∧ 300000 < now - r.added)) →
      expiredGo now bf s.pending_blocks = none := by
    intro hnone
    refine expiredGo_none now bf _ (fun r hr => ?_)
    cases hqb : expiredQual now bf r with
    | false => rfl
    | true => exact absurd ((expiredQual_iff now bf r).mp hqb) (hnone r hr)
  refine ⟨rfl, ?_, hexpOf, ?_, ?_⟩
  · intro i r hi hbit hage hfirst
    have hqual : expiredQual now bf r = true := (expiredQual_iff now bf r).mpr ⟨hbit, hage⟩
    have hnotq : ∀ j q, j < i → s.pending_blocks.get? j = some q →
        expiredQual now bf q = false := by
      intro j q hj hjq
      cases hqb : expiredQual now bf q with
      | false => rfl
      | true => exact absurd ((expiredQual_iff now bf q).mp hqb) (hfirst j q hj hjq)
    have hgo := expiredGo_first now bf s.pending_blocks i r hi hqual hnotq
    unfold next_request
    rw [hbf]
    simp only [hgo]
  · intro hnone
    have hexp := hexpOf hnone
    cases hong : nextOngoingGo bf s.ongoing_pieces with
    | none =>
      have he : next_ongoing now bf s = (none, s) := by
        unfold next_ongoing
        rw [hong]
      have h : next_request now pid s = rarest_or_missing bf s := by
        unfold next_request
        rw [hbf]
        simp only [hexp, he]
      refine ⟨[], ?_⟩
      rw [h, rarest_or_missing_pending]
      simp
    | some rps =>
      obtain ⟨r, ps⟩ := rps
      cases r with
      | some b =>
        have he : next_ongoing now bf s =
            (some b,
             { s with
                 ongoing_pieces := ps,
                 pending_blocks := s.pending_blocks ++
                   [⟨b.piece, b.offset, b.length, now⟩] }) := by
          unfold next_ongoing
          rw [hong]
        have h : next_request now pid s =
            (some b,
             { s with
                 ongoing_pieces := ps,
                 pending_blocks := s.pending_blocks ++
                   [⟨b.piece, b.offset, b.length, now⟩] }) := by
          unfold next_request
          rw [hbf]
          simp only [hexp, he]
        exact ⟨[⟨b.piece, b.offset, b.length, now⟩], by rw [h]⟩
      | none =>
        have he : next_ongoing now bf s = (none, { s with ongoing_pieces := ps }) := by
          unfold next_ongoing
          rw [hong]
        have h : next_request now pid s =
            rarest_or_missing bf { s with ongoing_pieces := ps } := by
          unfold next_request
          rw [hbf]
          simp only [hexp, he]
        refine ⟨[], ?_⟩
        rw [h, rarest_or_missing_pending]
        simp
  · exact ⟨by decide, by decide, by decide, by decide, by decide, by decide⟩

theorem C2_witness :
    next_request 300001 1 c2State =
      (some ⟨0, 0, REQUEST_SIZE⟩,
       { c2State with pending_blocks := [⟨0, 0, REQUEST_SIZE, 300001⟩] }) := by
  have h := (C2_expired_rerequest 300001 1 c2State [true, true, false] rfl).2.1
    0 ⟨0, 0, REQUEST_SIZE, 0⟩ rfl rfl (by decide)
    (fun j q hj _ => absurd hj (Nat.not_lt_zero j))
  simpa using h

/-- C1: with no servable expired pending request and no ongoing piece
the peer has, and with candidates present in missing, next_request
performs rarest-first selection: the chosen piece c is the element of
missing-order candidate list (pieces of missing whose bit is set in the
peer's bitfield) whose owner count over the known peers is minimal,
ties broken by insertion order (strictly earlier candidates have
strictly larger counts); c is moved from missing to the end of ongoing
with its first Missing block marked Pending, that block is returned,
and pending_blocks is NOT extended.  The second conjunct is the
scenario from the claim (spec S2): with missing pieces {0,1,2}, peer A
having {0,1}, peer B {1,2}, peer C {1}, the pieces dispatched by rule 3
are 0, then 2, then 1. -/
theorem C1_rarest_first :
    (∀ (now pid : Nat) (s : PMState) (bf : List Bool),
      lookupPeer s.peers pid = some bf →
      (∀ r ∈ s.pending_blocks, ¬(bitAt bf r.blockPiece = true ∧ 300000 < now - r.added)) →
      (∀ p ∈ s.ongoing_pieces, bitAt bf p.index = false) →
      (∀ p ∈ s.missing_pieces, p.blocks ≠ [] ∧
        ∀ b ∈ p.blocks, b.status = BlockStatus.Missing) →
      (∃ p ∈ s.missing_pieces, bitAt bf p.index = true) →
      ∃ c i b0 bs,
        (s.missing_pieces.filter (fun p => bitAt bf p.index)).get? i = some c ∧
        c.blocks = b0 :: bs ∧
        (∀ q ∈ s.missing_pieces, bitAt bf q.index = true →
          countOwners s.peers c.index ≤ countOwners s.peers q.index) ∧
        (∀ j q, j < i →
          (s.missing_pieces.filter (fun p => bitAt bf p.index)).get? j = some q →
          countOwners s.peers c.index < countOwners s.peers q.index) ∧
        next_request now pid s =
          (some ⟨b0.piece, b0.offset, b0.length⟩,
           { s with missing_pieces := s.missing_pieces.erase c,
                    ongoing_pieces := s.ongoing_pieces ++
                      [{ c with blocks :=
                        { b0 with status := BlockStatus.Pending } :: bs }] })) ∧
    ((next_request 0 1 s2State).1 = some ⟨0, 0, REQUEST_SIZE⟩ ∧
     (next_request 0 2 (next_request 0 1 s2State).2).1 = some ⟨2, 0, REQUEST_SIZE⟩ ∧
     (next_request 0 3 (next_request 0 2 (next_request 0 1 s2State).2).2).1 =
       some ⟨1, 0, REQUEST_SIZE⟩) := by
  constructor
  · intro now pid s bf hbf hNoExp hNoOng hMiss hSome
    have hmem := lookupPeer_mem _ _ _ hbf
    have hexp : expiredGo now bf s.pending_blocks = none := by
      refine expiredGo_none now bf _ (fun r hr => ?_)
      cases hqb : expiredQual now bf r with
      | false => rfl
      | true => exact absurd ((expiredQual_iff now bf r).mp hqb) (hNoExp r hr)
    have hong : next_ongoing now bf s = (none, s) := by
      unfold next_ongoing
      rw [nextOngoingGo_none bf _ hNoOng]
    have hcne : s.missing_pieces.filter (fun p => bitAt bf p.index) ≠ [] := by
      obtain ⟨p, hp, hbit⟩ := hSome
      exact List.ne_nil_of_mem (List.mem_filter.mpr ⟨hp, hbit⟩)
    obtain ⟨m, i, hmin, hget, hle, hfirst⟩ :=
      pyMinBy_first_min (fun p => countOwners s.peers p.index) _ hcne
    have hsel : getRarestSelect bf s.peers s.missing_pieces = some m := by
      rw [getRarestSelect_eq bf s.peers s.missing_pieces pid hmem, hmin]
    have hmcand : m ∈ s.missing_pieces.filter (fun p => bitAt bf p.index) :=
      List.get?_mem hget
    have hmmiss : m ∈ s.missing_pieces := (List.mem_filter.mp hmcand).1
    obtain ⟨hbne, hstat⟩ := hMiss m hmmiss
    obtain ⟨b0, bs, hblocks⟩ := List.exists_cons_of_ne_nil hbne
    have hb0 : b0.status = BlockStatus.Missing := by
      refine hstat b0 ?_
      rw [hblocks]
      exact List.mem_cons_self _ _
    have hnr : m.next_request =
        (some ⟨b0.piece, b0.offset, b0.length⟩,
         { m with blocks := { b0 with status := BlockStatus.Pending } :: bs }) := by
      unfold Piece.next_request
      rw [hblocks]
      simp [setFirstMissingPending, hb0]
    refine ⟨m, i, b0, bs, hget, hblocks, ?_, hfirst, ?_⟩
    · intro q hq hqbit
      exact hle q (List.mem_filter.mpr ⟨hq, hqbit⟩)
    · unfold next_request
      rw [hbf]
      simp only [hexp, hong, rarest_or_missing, hsel, hnr]
  · exact ⟨by decide, by decide, by decide⟩

theorem C1_witness :
    ∃ c i b0 bs,
      (s2State.missing_pieces.filter
        (fun p => bitAt [true, true, false] p.index)).get? i = some c ∧
      c.blocks = b0 :: bs ∧
      (∀ q ∈ s2State.missing_pieces, bitAt [true, true, false] q.index = true →
        countOwners s2State.peers c.index ≤ countOwners s2State.peers q.index) ∧
      (∀ j q, j < i →
        (s2State.missing_pieces.filter
          (fun p => bitAt [true, true, false] p.index)).get? j = some q →
        countOwners s2State.peers c.index < countOwners s2State.peers q.index) ∧
      next_request 0 1 s2State =
        (some ⟨b0.piece, b0.offset, b0.length⟩,
         { s2State with missing_pieces := s2State.missing_pieces.erase c,
                        ongoing_pieces := s2State.ongoing_pieces ++
                          [{ c with blocks :=
                            { b0 with status := BlockStatus.Pending } :: bs }] }) :=
  C1_rarest_first.1 0 1 s2State [true, true, false] rfl
    (fun r hr => absurd hr (List.not_mem_nil r))
    (fun p hp => absurd hp (List.not_mem_nil p))
    (by decide)
    ⟨exPiece 0, by decide⟩

/-! ## Lemmas for block_received (C3) -/
theorem findFirstWithIdx_get (f : α → Bool) (l : List α) (i : Nat) (a : α)
    (h : findFirstWithIdx f l = some (i, a)) : l.get? i = some a ∧ f a = true := by
  induction l generalizing i with
  | nil => exact absurd h (by simp [findFirstWithIdx])
  | cons x xs ih =>
    by_cases hx : f x
    · simp only [findFirstWithIdx, if_pos hx] at h
      have h1 := Option.some.inj h
      have hi := congrArg Prod.fst h1
      have ha := congrArg Prod.snd h1
      simp only at hi ha
      subst hi
      subst ha
      exact ⟨rfl, hx⟩
    · simp only [findFirstWithIdx, if_neg hx] at h
      cases hfx : findFirstWithIdx f xs with
      | none =>
        rw [hfx] at h
        exact absurd h (by simp)
      | some pr =>
        obtain ⟨j, b⟩ := pr
        rw [hfx] at h
        simp at h
        obtain ⟨hi, hb⟩ := h
        subst hi
        subst hb
        obtain ⟨hg, hf⟩ := ih j hfx
        exact ⟨by simpa using hg, hf⟩

theorem get?_set_self (l : List α) (i : Nat) (a : α) (h : i < l.length) :
    (l.set i a).get? i = some a := by
  induction l generalizing i with
  | nil => simp at h
  | cons x xs ih =>
    cases i with
    | zero => rfl
    | succ j =>
      have : j < xs.length := by simpa using h
      simpa using ih j this

theorem reset_all_missing (p : Piece) :
    ∀ b ∈ p.reset.blocks, b.status = BlockStatus.Missing := by
  intro b hb
  unfold Piece.reset at hb
  obtain ⟨b0, _, rfl⟩ := List.mem_map.mp hb
  rfl

/-- C3: a block delivery that completes an ongoing piece whose SHA-1
does not match the declared digest resets every block of that piece to
Missing and leaves the piece in ongoing at its position; have, missing
and the write log are untouched (nothing is written), and no other
piece changes (the state differs only in the removed pending record and
in position i of ongoing). -/
theorem C3_hash_mismatch_reset (hashFn : List Nat → List Nat)
    (pieceIndex blockOffset : Nat) (data : List Nat) (s : PMState)
    (i : Nat) (p : Piece)
    (hfind : findFirstWithIdx (fun q => q.index == pieceIndex) s.ongoing_pieces =
      some (i, p))
    (hcomp : (p.block_received blockOffset data).is_complete = true)
    (hmis : hashFn (p.block_received blockOffset data).piece_data ≠
      (p.block_received blockOffset data).hash_value) :
    block_received hashFn pieceIndex blockOffset data s =
      { s with
          pending_blocks := removeFirstPending pieceIndex blockOffset s.pending_blocks,
          ongoing_pieces :=
            s.ongoing_pieces.set i (p.block_received blockOffset data).reset } ∧
    (∀ b ∈ (p.block_received blockOffset data).reset.blocks,
      b.status = BlockStatus.Missing) ∧
    (block_received hashFn pieceIndex blockOffset data s).ongoing_pieces.get? i =
      some (p.block_received blockOffset data).reset ∧
    (p.block_received blockOffset data).reset.index = pieceIndex ∧
    (block_received hashFn pieceIndex blockOffset data s).have_pieces = s.have_pieces ∧
    (block_received hashFn pieceIndex blockOffset data s).missing_pieces =
      s.missing_pieces ∧
    (block_received hashFn pieceIndex blockOffset data s).writes = s.writes := by
  have hmatch : (p.block_received blockOffset data).is_hash_matching hashFn = false := by
    unfold Piece.is_hash_matching
    exact beq_eq_false_iff_ne.mpr (fun h => hmis h.symm)
  obtain ⟨hget, hf⟩ := findFirstWithIdx_get _ _ _ _ hfind
  have hlen : i < s.ongoing_pieces.length := (List.get?_eq_some.mp hget).1
  have hidx : p.index = pieceIndex := by simpa using hf
  have hres : block_received hashFn pieceIndex blockOffset data s =
      { s with
          pending_blocks := removeFirstPending pieceIndex blockOffset s.pending_blocks,
          ongoing_pieces :=
            s.ongoing_pieces.set i (p.block_received blockOffset data).reset } := by
    unfold block_received
    simp only [hfind, hcomp, hmatch]
    simp
  refine ⟨hres, reset_all_missing _, ?_, ?_, by rw [hres], by rw [hres], by rw [hres]⟩
  · rw [hres]
    exact get?_set_self _ _ _ (by simpa using hlen)
  · simpa using hidx

theorem C3_witness :
    block_received (fun _ => [7]) 0 0 [5] c3State =
      { c3State with
          pending_blocks := removeFirstPending 0 0 c3State.pending_blocks,
          ongoing_pieces := c3State.ongoing_pieces.set 0 (c3Piece.block_received 0 [5]).reset } :=
  (C3_hash_mismatch_reset (fun _ => [7]) 0 0 [5] c3State 0 c3Piece rfl (by decide)
    (by decide)).1

theorem next_request_piece_index (p : Piece) : p.next_request.2.index = p.index := rfl

theorem init_pieces_map_index (pl tl : Nat) (hs : List (List Nat)) :
    (init_pieces pl tl hs).map Piece.index = List.range hs.length := by
  unfold init_pieces
  rw [List.map_map]
  have h1 : (Piece.index ∘ fun ih : Nat × List Nat =>
      if ih.1 < hs.length - 1 then
        (⟨ih.1, (List.range (ceilDiv pl REQUEST_SIZE)).map
          (fun o => { piece := ih.1, offset := o * REQUEST_SIZE,
                      length := REQUEST_SIZE }), ih.2⟩ : Piece)
      else
        (⟨ih.1,
          if 0 < tl % pl % REQUEST_SIZE then
            setLastLength (tl % pl % REQUEST_SIZE)
              ((List.range (ceilDiv (tl % pl) REQUEST_SIZE)).map
                (fun o => ({ piece := ih.1, offset := o * REQUEST_SIZE,
                             length := REQUEST_SIZE } : Block)))
          else
            (List.range (ceilDiv (tl % pl) REQUEST_SIZE)).map
              (fun o => ({ piece := ih.1, offset := o * REQUEST_SIZE,
                           length := REQUEST_SIZE } : Block)), ih.2⟩ : Piece)) = Prod.fst := by
    funext ih
    by_cases h : ih.1 < hs.length - 1 <;> simp [h]
  rw [h1, List.enum_map_fst]

theorem nextOngoingGo_map_index (bf : List Bool) (l : List Piece) (r : Option BlockId)
    (l2 : List Piece) (h : nextOngoingGo bf l = some (r, l2)) :
    l2.map Piece.index = l.map Piece.index := by
  induction l generalizing r l2 with
  | nil => simp [nextOngoingGo] at h
  | cons p ps ih =>
    by_cases hp : bitAt bf p.index = true
    · simp only [nextOngoingGo, hp, if_true] at h
      have h1 := Option.some.inj h
      have hl := congrArg Prod.snd h1
      simp only at hl
      rw [← hl]
      simp [next_request_piece_index]
    · rw [Bool.not_eq_true] at hp
      simp only [nextOngoingGo, hp] at h
      simp only [Bool.false_eq_true, if_false] at h
      cases hgo : nextOngoingGo bf ps with
      | none => rw [hgo] at h; exact absurd h (by simp)
      | some pr =>
        obtain ⟨r2, ps2⟩ := pr
        rw [hgo] at h
        have h1 := Option.some.inj h
        have hl := congrArg Prod.snd h1
        simp only at hl
        rw [← hl]
        simp [ih r2 ps2 hgo]

theorem nextMissingGo_perm (bf : List Bool) (l : List Piece) (c : Piece)
    (ms : List Piece) (h : nextMissingGo bf l = some (c, ms)) : l.Perm (c :: ms) := by
  induction l generalizing ms with
  | nil => simp [nextMissingGo] at h
  | cons p ps ih =>
    by_cases hp : bitAt bf p.index = true
    · simp only [nextMissingGo, hp, if_true] at h
      have h1 := Option.some.inj h
      injection h1 with hc hm
      subst hc
      subst hm
      exact List.Perm.refl _
    · rw [Bool.not_eq_true] at hp
      simp only [nextMissingGo, hp, Bool.false_eq_true, if_false] at h
      cases hgo : nextMissingGo bf ps with
      | none => rw [hgo] at h; exact absurd h (by simp)
      | some pr =>
        obtain ⟨c2, ps2⟩ := pr
        rw [hgo] at h
        have h1 := Option.some.inj h
        injection h1 with hc hm
        subst hc
        subst hm
        exact (List.Perm.cons p (ih ps2 hgo)).trans (List.Perm.swap c2 p ps2)

theorem pyMinBy_mem (f : α → Nat) (l : List α) (m : α)
    (h : pyMinBy f l = some m) : m ∈ l := by
  induction l generalizing m with
  | nil => simp [pyMinBy] at h
  | cons a as ih =>
    rw [pyMinBy_cons] at h
    cases hmin : pyMinBy f as with
    | none =>
      rw [hmin] at h
      have := Option.some.inj h
      subst this
      exact List.mem_cons_self _ _
    | some m2 =>
      rw [hmin] at h
      by_cases hlt : f m2 < f a
      · simp [hlt] at h
        subst h
        exact List.mem_cons_of_mem _ (ih _ hmin)
      · simp [hlt] at h
        subst h
        exact List.mem_cons_self _ _

theorem getRarestSelect_mem (bf : List Bool) (peers : List (Nat × List Bool))
    (missing : List Piece) (c : Piece)
    (h : getRarestSelect bf peers missing = some c) : c ∈ missing := by
  unfold getRarestSelect at h
  have hm := pyMinBy_mem _ _ _ h
  obtain ⟨pc, hpc, rfl⟩ := List.mem_map.mp hm
  unfold pieceCount at hpc
  have h2 := (List.mem_filter.mp hpc).1
  obtain ⟨p, hp, rfl⟩ := List.mem_map.mp h2
  exact (List.mem_filter.mp hp).1

theorem map_index_set_same (l : List Piece) (i : Nat) (p q : Piece)
    (hget : l.get? i = some p) (hidx : q.index = p.index) :
    (l.set i q).map Piece.index = l.map Piece.index := by
  induction l generalizing i with
  | nil => simp at hget
  | cons x xs ih =>
    cases i with
    | zero =>
      have hx : x = p := by simpa using hget
      subst hx
      simp [hidx]
    | succ j =>
      have hg2 : xs.get? j = some p := by simpa using hget
      simp [ih j hg2]

/-- Moving one element from the first of three concatenated lists to
the end of the second preserves the multiset. -/
theorem perm_move_from_fst (A A2 B C : List Nat) (a : Nat) (h : A.Perm (a :: A2)) :
    (A2 ++ (B ++ [a]) ++ C).Perm (A ++ B ++ C) := by
  have e1 : A2 ++ (B ++ [a]) ++ C = (A2 ++ B) ++ a :: C := by simp
  have p1 : ((A2 ++ B) ++ a :: C).Perm (a :: (A2 ++ B ++ C)) := List.perm_middle
  have p2 : ((a :: A2) ++ B ++ C).Perm (A ++ B ++ C) :=
    (h.symm.append_right B).append_right C
  have e2 : (a :: A2) ++ B ++ C = a :: (A2 ++ B ++ C) := by simp
  rw [e2] at p2
  rw [e1]
  exact p1.trans p2

/-- Moving one element from the second of three concatenated lists to
the end of the third preserves the multiset. -/
theorem perm_move_from_snd (A B B2 C : List Nat) (b : Nat) (h : B.Perm (b :: B2)) :
    (A ++ B2 ++ (C ++ [b])).Perm (A ++ B ++ C) := by
  have e1 : A ++ B2 ++ (C ++ [b]) = ((A ++ B2) ++ C) ++ [b] := by simp
  have p1 : (((A ++ B2) ++ C) ++ [b]).Perm ([b] ++ ((A ++ B2) ++ C)) :=
    List.perm_append_comm
  have e2 : [b] ++ ((A ++ B2) ++ C) = b :: (A ++ (B2 ++ C)) := by simp
  have p2 : (b :: (A ++ (B2 ++ C))).Perm (A ++ b :: (B2 ++ C)) := List.perm_middle.symm
  have p3 : ((A ++ (b :: B2)) ++ C).Perm (A ++ B ++ C) :=
    (List.Perm.append_left A h.symm).append_right C
  have e3 : A ++ b :: (B2 ++ C) = (A ++ (b :: B2)) ++ C := by simp
  rw [e2] at p1
  rw [e3] at p2
  rw [e1]
  exact (p1.trans p2).trans p3

theorem rarest_or_missing_pieceIdxs (bf : List Bool) (s : PMState) :
    (pieceIdxs (rarest_or_missing bf s).2).Perm (pieceIdxs s) := by
  unfold rarest_or_missing
  cases hsel : getRarestSelect bf s.peers s.missing_pieces with
  | some c =>
    have hc : c ∈ s.missing_pieces := getRarestSelect_mem _ _ _ _ hsel
    have hpm := (List.perm_cons_erase hc).map Piece.index
    simp only [pieceIdxs, List.map_append, List.map_cons, List.map_nil,
      next_request_piece_index]
    exact perm_move_from_fst _ _ _ _ _ (by simpa using hpm)
  | none =>
    unfold next_missing
    cases hnm : nextMissingGo bf s.missing_pieces with
    | none => exact List.Perm.refl _
    | some pr =>
      obtain ⟨c, ms⟩ := pr
      have hpm := (nextMissingGo_perm bf _ _ _ hnm).map Piece.index
      simp only [pieceIdxs, List.map_append, List.map_cons, List.map_nil,
        next_request_piece_index]
      exact perm_move_from_fst _ _ _ _ _ (by simpa using hpm)

theorem next_request_pieceIdxs (now pid : Nat) (s : PMState) :
    (pieceIdxs (next_request now pid s).2).Perm (pieceIdxs s) := by
  cases hbf : lookupPeer s.peers pid with
  | none =>
    have h : next_request now pid s = (none, s) := by
      unfold next_request
      rw [hbf]
    rw [h]
  | some bf =>
    cases hexp : expiredGo now bf s.pending_blocks with
    | some br =>
      obtain ⟨b, pbs⟩ := br
      have h : next_request now pid s = (some b, { s with pending_blocks := pbs }) := by
        unfold next_request
        rw [hbf]
        simp only [hexp]
      rw [h]
      exact List.Perm.refl _
    | none =>
      cases hong : nextOngoingGo bf s.ongoing_pieces with
      | none =>
        have he : next_ongoing now bf s = (none, s) := by
          unfold next_ongoing
          rw [hong]
        have h : next_request now pid s = rarest_or_missing bf s := by
          unfold next_request
          rw [hbf]
          simp only [hexp, he]
        rw [h]
        exact rarest_or_missing_pieceIdxs bf s
      | some rps =>
        obtain ⟨r, ps⟩ := rps
        have hmap := nextOngoingGo_map_index bf _ _ _ hong
        cases r with
        | some b =>
          have he : next_ongoing now bf s =
              (some b,
               { s with
                   ongoing_pieces := ps,
                   pending_blocks := s.pending_blocks ++
                     [⟨b.piece, b.offset, b.length, now⟩] }) := by
            unfold next_ongoing
            rw [hong]
          have h : next_request now pid s =
              (some b,
               { s with
                   ongoing_pieces := ps,
                   pending_blocks := s.pending_blocks ++
                     [⟨b.piece, b.offset, b.length, now⟩] }) := by
            unfold next_request
            rw [hbf]
            simp only [hexp, he]
          rw [h]
          simp only [pieceIdxs]
          rw [hmap]
        | none =>
          have he : next_ongoing now bf s = (none, { s with ongoing_pieces := ps }) := by
            unfold next_ongoing
            rw [hong]
          have h : next_request now pid s =
              rarest_or_missing bf { s with ongoing_pieces := ps } := by
            unfold next_request
            rw [hbf]
            simp only [hexp, he]
          rw [h]
          refine (rarest_or_missing_pieceIdxs bf _).trans ?_
          simp only [pieceIdxs]
          rw [hmap]

theorem block_received_pieceIdxs (hashFn : List Nat → List Nat)
    (pieceIndex blockOffset : Nat) (data : List Nat) (s : PMState) :
    (pieceIdxs (block_received hashFn pieceIndex blockOffset data s)).Perm
      (pieceIdxs s) := by
  cases hfind : findFirstWithIdx (fun p => p.index == pieceIndex) s.ongoing_pieces with
  | none =>
    have h : block_received hashFn pieceIndex blockOffset data s =
        { s with pending_blocks :=
            removeFirstPending pieceIndex blockOffset s.pending_blocks } := by
      unfold block_received
      simp only [hfind]
    rw [h]
    exact List.Perm.refl _
  | some ip =>
    obtain ⟨i, p⟩ := ip
    obtain ⟨hget, _⟩ := findFirstWithIdx_get _ _ _ _ hfind
    have hlen : i < s.ongoing_pieces.length := (List.get?_eq_some.mp hget).1
    by_cases hcomp : (p.block_received blockOffset data).is_complete = true
    · by_cases hmat : (p.block_received blockOffset data).is_hash_matching hashFn = true
      · have h : block_received hashFn pieceIndex blockOffset data s =
            { s with
                pending_blocks :=
                  removeFirstPending pieceIndex blockOffset s.pending_blocks,
                ongoing_pieces :=
                  (s.ongoing_pieces.set i (p.block_received blockOffset data)).erase
                    (p.block_received blockOffset data),
                have_pieces := s.have_pieces ++ [p.block_received blockOffset data],
                writes := s.writes ++
                  [(s.piece_length * (p.block_received blockOffset data).index,
                    (p.block_received blockOffset data).piece_data)] } := by
          unfold block_received
          simp only [hfind, hcomp, hmat]
          simp
        rw [h]
        have hset : (s.ongoing_pieces.set i (p.block_received blockOffset data)).map
            Piece.index = s.ongoing_pieces.map Piece.index :=
          map_index_set_same _ _ _ _ hget rfl
        have hmem : p.block_received blockOffset data ∈
            s.ongoing_pieces.set i (p.block_received blockOffset data) :=
          List.get?_mem (get?_set_self _ _ _ hlen)
        have hpm := (List.perm_cons_erase hmem).map Piece.index
        rw [hset] at hpm
        simp only [pieceIdxs, List.map_append, List.map_cons, List.map_nil]
        exact perm_move_from_snd _ _ _ _ _ (by simpa using hpm)
      · rw [Bool.not_eq_true] at hmat
        have h : block_received hashFn pieceIndex blockOffset data s =
            { s with
                pending_blocks :=
                  removeFirstPending pieceIndex blockOffset s.pending_blocks,
                ongoing_pieces :=
                  s.ongoing_pieces.set i (p.block_received blockOffset data).reset } := by
          unfold block_received
          simp only [hfind, hcomp, hmat]
          simp
        rw [h]
        have hset := map_index_set_same s.ongoing_pieces i p
          ((p.block_received blockOffset data).reset) hget rfl
        simp only [pieceIdxs]
        rw [hset]
    · rw [Bool.not_eq_true] at hcomp
      have h : block_received hashFn pieceIndex blockOffset data s =
          { s with
              pending_blocks :=
                removeFirstPending pieceIndex blockOffset s.pending_blocks,
              ongoing_pieces :=
                s.ongoing_pieces.set i (p.block_received blockOffset data) } := by
        unfold block_received
        simp only [hfind, hcomp]
        simp
      rw [h]
      have hset := map_index_set_same s.ongoing_pieces i p
        (p.block_received blockOffset data) hget rfl
      simp only [pieceIdxs]
      rw [hset]

theorem applyOp_pieceIdxs (hashFn : List Nat → List Nat) (op : PMOp) (s : PMState) :
    (pieceIdxs (applyOp hashFn op s)).Perm (pieceIdxs s) := by
  cases op with
  | addPeer pid bf => exact List.Perm.refl _
  | updatePeer pid idx =>
    show (pieceIdxs (update_peer pid idx s)).Perm (pieceIdxs s)
    cases hlk : lookupPeer s.peers pid with
    | none =>
      have h : update_peer pid idx s = s := by
        unfold update_peer
        rw [hlk]
      rw [h]
    | some bf =>
      have h : update_peer pid idx s =
          { s with peers := dictSet s.peers pid (bf.set idx true) } := by
        unfold update_peer
        rw [hlk]
      rw [h]
      exact List.Perm.refl _
  | removePeer pid =>
    show (pieceIdxs (remove_peer pid s)).Perm (pieceIdxs s)
    cases hlk : lookupPeer s.peers pid with
    | none =>
      have h : remove_peer pid s = s := by
        unfold remove_peer
        rw [hlk]
      rw [h]
    | some bf =>
      have h : remove_peer pid s = { s with peers := dictDel s.peers pid } := by
        unfold remove_peer
        rw [hlk]
      rw [h]
      exact List.Perm.refl _
  | nextReq now pid => exact next_request_pieceIdxs now pid s
  | blockRecv pi off d => exact block_received_pieceIdxs hashFn pi off d s

theorem applyOps_pieceIdxs (hashFn : List Nat → List Nat) (ops : List PMOp)
    (s : PMState) : (pieceIdxs (applyOps hashFn ops s)).Perm (pieceIdxs s) := by
  induction ops generalizing s with
  | nil => exact List.Perm.refl _
  | cons op rest ih =>
    exact (ih (applyOp hashFn op s)).trans (applyOp_pieceIdxs hashFn op s)

theorem initPM_pieceIdxs (pl tl : Nat) (hashes : List (List Nat)) :
    pieceIdxs (initPM pl tl hashes) = List.range hashes.length := by
  unfold pieceIdxs initPM
  simp [init_pieces_map_index]

/-- C6: after any sequence of PieceManager operations from the initial
state, the three piece lists missing, ongoing, have — pieces being
identified by their index across block mutations — are pairwise
disjoint and their union is exactly the torrent's piece set
{0, …, |pieces|−1} (their concatenated index list is a permutation of
range |pieces|). -/
theorem C6_partition (hashFn : List Nat → List Nat) (pieceLength totalLength : Nat)
    (hashes : List (List Nat)) (ops : List PMOp) (s : PMState)
    (hs : s = applyOps hashFn ops (initPM pieceLength totalLength hashes)) :
    (pieceIdxs s).Perm (List.range hashes.length) ∧
    (∀ k, (k ∈ s.missing_pieces.map Piece.index ∨
           k ∈ s.ongoing_pieces.map Piece.index ∨
           k ∈ s.have_pieces.map Piece.index) ↔ k < hashes.length) ∧
    (∀ k, ¬(k ∈ s.missing_pieces.map Piece.index ∧
            k ∈ s.ongoing_pieces.map Piece.index)) ∧
    (∀ k, ¬(k ∈ s.missing_pieces.map Piece.index ∧
            k ∈ s.have_pieces.map Piece.index)) ∧
    (∀ k, ¬(k ∈ s.ongoing_pieces.map Piece.index ∧
            k ∈ s.have_pieces.map Piece.index)) := by
  subst hs
  have hP := applyOps_pieceIdxs hashFn ops (initPM pieceLength totalLength hashes)
  rw [initPM_pieceIdxs] at hP
  have hnd : (pieceIdxs (applyOps hashFn ops
      (initPM pieceLength totalLength hashes))).Nodup :=
    hP.nodup_iff.mpr (List.nodup_range _)
  have hnd2 := hnd
  unfold pieceIdxs at hnd2
  rw [List.nodup_append] at hnd2
  obtain ⟨hndMO, hndH, hdisMOH⟩ := hnd2
  rw [List.nodup_append] at hndMO
  obtain ⟨hndM, hndO, hdisMO⟩ := hndMO
  refine ⟨hP, ?_, ?_, ?_, ?_⟩
  · intro k
    have hmem : k ∈ pieceIdxs (applyOps hashFn ops
        (initPM pieceLength totalLength hashes)) ↔ k < hashes.length := by
      rw [hP.mem_iff, List.mem_range]
    rw [← hmem]
    unfold pieceIdxs
    simp [or_assoc]
  · intro k ⟨hm, ho⟩
    exact hdisMO hm ho
  · intro k ⟨hm, hh⟩
    exact hdisMOH (List.mem_append.mpr (Or.inl hm)) hh
  · intro k ⟨ho, hh⟩
    exact hdisMOH (List.mem_append.mpr (Or.inr ho)) hh

theorem C6_witness :
    (pieceIdxs (applyOps (fun _ => []) [PMOp.addPeer 1 [true, true], PMOp.nextReq 0 1]
      (initPM 16384 32768 [[0], [1]]))).Perm (List.range 2) :=
  (C6_partition (fun _ => []) 16384 32768 [[0], [1]]
    [PMOp.addPeer 1 [true, true], PMOp.nextReq 0 1] _ rfl).1

/-- C9 counterexample: on a metainfo whose piece length is a byte
string (not an integer) and whose pieces string has length 30 (not a
multiple of 20), loading SUCCEEDS — a fully usable Torrent value is
produced, its piece_length property returns the non-integer value raw,
and its pieces property returns a chunking whose last digest is only
10 bytes — contrary to the claim that loading fails in these cases. -/
theorem C9_counterexample :
    torrent_init (fun _ => []) (BVal.bdict c9Meta) = Except.ok c9Torrent ∧
    torrent_piece_length c9Torrent = Except.ok (BVal.bstr (asciiBytes "x")) ∧
    torrent_pieces c9Torrent =
      Except.ok [List.replicate 20 0, List.replicate 10 0] ∧
    30 % 20 ≠ 0 :=
  ⟨rfl, rfl, rfl, by decide⟩

/-- C9 amended: loading fails (with RuntimeError / KeyError — there is
no dedicated BadTorrent error) exactly when the torrent declares
multiple files (info.files present) or when info, info.name or
info.length is missing; a non-integer piece length and a pieces string
whose length is not a multiple of 20 are NOT detected:
loading succeeds regardless, piece_length returns the stored value with
no type check, and pieces returns the 20-byte chunking (short last
chunk included) with no failure. -/
theorem C9_amended_loading (infoDigest : BVal → List Nat)
    (d di : List (List Nat × BVal))
    (hinfo : bdictGet d keyInfo = some (BVal.bdict di)) :
    ((bdictGet di keyFiles).isSome = true →
      torrent_init infoDigest (BVal.bdict d) = Except.error PyErr.runtimeError) ∧
    (bdictGet di keyFiles = none → bdictGet di keyName = none →
      torrent_init infoDigest (BVal.bdict d) = Except.error PyErr.keyError) ∧
    (∀ nm, bdictGet di keyFiles = none →
      bdictGet di keyName = some (BVal.bstr nm) → utf8Valid nm = true →
      bdictGet di keyLength = none →
      torrent_init infoDigest (BVal.bdict d) = Except.error PyErr.keyError) ∧
    (∀ nm lv, bdictGet di keyFiles = none →
      bdictGet di keyName = some (BVal.bstr nm) → utf8Valid nm = true →
      bdictGet di keyLength = some lv →
      torrent_init infoDigest (BVal.bdict d) =
        Except.ok ⟨d, infoDigest (BVal.bdict di), [(nm, lv)]⟩) ∧
    (∀ pl ih fs, bdictGet di keyPieceLength = some pl →
      torrent_piece_length ⟨d, ih, fs⟩ = Except.ok pl) ∧
    (∀ data ih fs, bdictGet di keyPieces = some (BVal.bstr data) →
      torrent_pieces ⟨d, ih, fs⟩ = Except.ok (chunksOf 20 data)) := by
  refine ⟨?_, ?_, ?_, ?_, ?_, ?_⟩
  · intro hfs
    simp [torrent_init, hinfo, hfs]
  · intro hfs hnm
    simp [torrent_init, hinfo, hfs, hnm]
  · intro nm hfs hnm hu hlen
    simp [torrent_init, hinfo, hfs, hnm, hu, hlen]
  · intro nm lv hfs hnm hu hlen
    simp [torrent_init, hinfo, hfs, hnm, hu, hlen]
  · intro pl ih fs hpl
    simp [torrent_piece_length, hinfo, hpl]
  · intro data ih fs hdata
    simp [torrent_pieces, hinfo, hdata]

theorem C9_amended_witness :
    torrent_init (fun _ => [1]) (BVal.bdict c9Meta) =
      Except.ok ⟨c9Meta, (fun _ => [1]) (BVal.bdict c9Info),
        [(asciiBytes "f", BVal.int 10)]⟩ ∧
    torrent_piece_length ⟨c9Meta, [1], []⟩ =
      Except.ok (BVal.bstr (asciiBytes "x")) :=
  ⟨(C9_amended_loading (fun _ => [1]) c9Meta c9Info rfl).2.2.2.1
      (asciiBytes "f") (BVal.int 10) rfl rfl rfl rfl,
   (C9_amended_loading (fun _ => [1]) c9Meta c9Info rfl).2.2.2.2.1
      (BVal.bstr (asciiBytes "x")) [1] [] rfl⟩

/-! ## Lemmas: the compact peer chunking agrees with the spec's record
description when the byte string's length is a multiple of 6 -/
theorem chunksOfAux_fuel (n : Nat) :
    ∀ fuel l, l.length ≤ fuel → chunksOfAux n fuel l = chunksOfAux n l.length l := by
  intro fuel
  induction fuel using Nat.strong_induction_on with
  | _ fuel ih =>
    intro l h
    cases fuel with
    | zero =>
      cases l with
      | nil => rfl
      | cons a rest => simp at h
    | succ f =>
      cases l with
      | nil => rfl
      | cons a rest =>
        simp only [List.length_cons] at h
        simp only [List.length_cons, chunksOfAux]
        congr 1
        have hd : (rest.drop (n - 1)).length ≤ rest.length := by
          rw [List.length_drop]
          omega
        rw [ih f (by omega) _ (by omega), ih rest.length (by omega) _ hd]

theorem chunksOf_six_cons (a b c d e f : Nat) (rest : List Nat) :
    chunksOf 6 (a :: b :: c :: d :: e :: f :: rest) =
      [a, b, c, d, e, f] :: chunksOf 6 rest := by
  have hdrop : (b :: c :: d :: e :: f :: rest).drop 5 = rest := rfl
  have htake : (a :: b :: c :: d :: e :: f :: rest).take 6 = [a, b, c, d, e, f] := rfl
  unfold chunksOf
  simp only [List.length_cons, chunksOfAux, hdrop, htake]
  congr 1
  exact chunksOfAux_fuel 6 _ rest (by omega)

theorem drop_cons_add_six (x1 x2 x3 x4 x5 x6 : Nat) (l : List Nat) (n : Nat) :
    (x1 :: x2 :: x3 :: x4 :: x5 :: x6 :: l).drop (n + 6) = l.drop n := by
  have h : n + 6 = (((((n + 1) + 1) + 1) + 1) + 1) + 1 := by omega
  rw [h]
  rfl

theorem getD_cons_add_six (x1 x2 x3 x4 x5 x6 : Nat) (l : List Nat) (n dflt : Nat) :
    (x1 :: x2 :: x3 :: x4 :: x5 :: x6 :: l).getD (n + 6) dflt = l.getD n dflt := by
  have h : n + 6 = (((((n + 1) + 1) + 1) + 1) + 1) + 1 := by omega
  rw [h]
  rfl

theorem specCompactPeers_cons (a b c d e f : Nat) (rest : List Nat) :
    specCompactPeers (a :: b :: c :: d :: e :: f :: rest) =
      ([a, b, c, d], 256 * e + f) :: specCompactPeers rest := by
  unfold specCompactPeers
  have hlen : (a :: b :: c :: d :: e :: f :: rest).length / 6 = rest.length / 6 + 1 := by
    simp only [List.length_cons]
    omega
  rw [hlen, List.range_succ_eq_map, List.map_cons, List.map_map]
  congr 1

theorem decodePeerChunks_spec : ∀ (m : Nat) (pb : List Nat), pb.length = 6 * m →
    decodePeerChunks (chunksOf 6 pb) = Except.ok (specCompactPeers pb) := by
  intro m
  induction m with
  | zero =>
    intro pb h
    have hnil : pb = [] := List.length_eq_zero.mp (by omega)
    subst hnil
    rfl
  | succ m ih =>
    intro pb h
    rcases pb with _ | ⟨a, _ | ⟨b, _ | ⟨c, _ | ⟨d, _ | ⟨e, _ | ⟨f2, rest⟩⟩⟩⟩⟩⟩
    · simp only [List.length_nil] at h
      omega
    · simp only [List.length_cons, List.length_nil] at h
      omega
    · simp only [List.length_cons, List.length_nil] at h
      omega
    · simp only [List.length_cons, List.length_nil] at h
      omega
    · simp only [List.length_cons, List.length_nil] at h
      omega
    · simp only [List.length_cons, List.length_nil] at h
      omega
    · have hrest : rest.length = 6 * m := by
        simp only [List.length_cons] at h
        omega
      rw [chunksOf_six_cons, specCompactPeers_cons]
      simp only [decodePeerChunks, decodeChunk6]
      rw [ih rest hrest]

/-- C8 counterexample: this response's bencoded dictionary has NO
`failure reason` key, so by the claim the announce must return its
interval and peers; but check_for_error searches the raw UTF-8 text for
the substring 'failure', finds it inside the benign `name` value, and
the announce fails with ConnectionError. -/
theorem C8_counterexample :
    tracker_connect c8FailureBytes = Except.error TrackerErr.connectionError ∧
    bdecode c8FailureBytes = some (BVal.bdict c8FailureDict) ∧
    bdictGet c8FailureDict keyFailureReason = none :=
  ⟨rfl, rfl, rfl⟩

/-- C8 amended: the announce fails with ConnectionError if and only if
the response bytes decode as UTF-8 and contain the substring 'failure'
anywhere (an approximation of the `failure reason` key test: a benign
response mentioning 'failure' is wrongly refused, and a failure
response with non-UTF-8 bytes is not detected; the raised error carries
the whole text rather than the reason value).  Otherwise, when the
response decodes to a dictionary whose `peers` value is a byte string
of length a multiple of 6, the announce returns the wrapped response,
whose interval is the dictionary's `interval` value (default 0) and
whose peer list is the spec's compact decoding: 6-byte records of a
4-byte big-endian IPv4 followed by a 2-byte big-endian port. -/
theorem C8_amended (bs : List Nat) :
    (tracker_connect bs = Except.error TrackerErr.connectionError ↔
      (utf8Valid bs = true ∧ containsSub failureWord bs = true)) ∧
    (∀ d pb, bdecode bs = some (BVal.bdict d) →
      check_for_error bs = false →
      bdictGet d keyPeers = some (BVal.bstr pb) → 6 ∣ pb.length →
      tracker_connect bs = Except.ok ⟨BVal.bdict d⟩ ∧
      TrackerResp.interval ⟨BVal.bdict d⟩ =
        Except.ok ((bdictGet d keyInterval).getD (BVal.int 0)) ∧
      TrackerResp.peers ⟨BVal.bdict d⟩ = Except.ok (specCompactPeers pb)) := by
  constructor
  · constructor
    · intro h
      by_cases hc : check_for_error bs = true
      · simpa [check_for_error] using hc
      · rw [Bool.not_eq_true] at hc
        cases hb : bdecode bs with
        | none => simp [tracker_connect, hc, hb] at h
        | some v => simp [tracker_connect, hc, hb] at h
    · rintro ⟨h1, h2⟩
      have hc : check_for_error bs = true := by
        simp [check_for_error, h1, h2]
      simp [tracker_connect, hc]
  · intro d pb hdec hc hpeers hdvd
    obtain ⟨m, hm⟩ := hdvd
    refine ⟨?_, rfl, ?_⟩
    · simp [tracker_connect, hc, hdec]
    · simp [TrackerResp.peers, hpeers, decodePeerChunks_spec m pb hm]

theorem C8_amended_witness :
    tracker_connect c8GoodBytes = Except.ok ⟨BVal.bdict c8GoodDict⟩ ∧
    TrackerResp.interval ⟨BVal.bdict c8GoodDict⟩ = Except.ok (BVal.int 900) ∧
    TrackerResp.peers ⟨BVal.bdict c8GoodDict⟩ =
      Except.ok [([1, 2, 3, 4], 80)] := by
  have h := (C8_amended c8GoodBytes).2 c8GoodDict [1, 2, 3, 4, 0, 80] rfl rfl rfl ⟨1, rfl⟩
  exact ⟨h.1, h.2.1, h.2.2⟩

end Pears
